import Mathlib

/-!
Verification of the `ocflite` index engine of `ocfl-services`.

The definitions below are a shallow embedding of the Go sources
`internal/ocflite/ocflite.go`, `internal/ocflite/digestmap.go`, the SQL
queries under `internal/ocflite/queries/`, and the error translation in
`access/sqlite/sqlite.go`.  Go maps are embedded as association lists,
SQL tables as lists of row structures, and the SHA-512 hashing collaborator
(from Go's standard library, external to the repository) as an abstract
function parameter `sha : String → String` standing for
`hex(SHA512(bytes))`: the incremental `hash.Write` calls are modelled by
accumulating the written string and applying `sha` once at the end.
-/

namespace Ocflite

/-! ### Generic utilities: byte-order string comparison and insertion sort

SQLite orders TEXT columns by memcmp and Go's `sort.Strings` /
`slices.Sort` use byte order; on UTF-8 both coincide with codepoint
lexicographic order, which is what `charListLt` computes. -/

def charListLt : List Char → List Char → Bool
  | [], [] => false
  | [], _ :: _ => true
  | _ :: _, [] => false
  | a :: as, b :: bs => if a < b then true else if b < a then false else charListLt as bs

def strLtB (a b : String) : Bool := charListLt a.data b.data

def strLeB (a b : String) : Bool := !(strLtB b a)

theorem charListLt_irrefl : ∀ l, charListLt l l = false := by
  intro l
  induction l with
  | nil => rfl
  | cons a as ih => simp [charListLt, ih]

theorem charListLt_asymm : ∀ a b, charListLt a b = true → charListLt b a = false := by
  intro a
  induction a with
  | nil => intro b _; cases b <;> rfl
  | cons x xs ih =>
    intro b h
    cases b with
    | nil => simp [charListLt] at h
    | cons y ys =>
      simp only [charListLt] at h ⊢
      by_cases hxy : x < y
      · simp [hxy, lt_asymm hxy]
      · by_cases hyx : y < x
        · simp [hxy, hyx] at h
        · simp only [hxy, hyx, if_false] at h ⊢
          exact ih ys h

theorem charListLt_eq_of_not : ∀ a b, charListLt a b = false → charListLt b a = false → a = b := by
  intro a
  induction a with
  | nil => intro b _ hb; cases b with
    | nil => rfl
    | cons y ys => simp [charListLt] at *
  | cons x xs ih =>
    intro b ha hb
    cases b with
    | nil => simp [charListLt] at hb
    | cons y ys =>
      simp only [charListLt] at ha hb
      by_cases hxy : x < y
      · simp [hxy] at ha
      · by_cases hyx : y < x
        · simp [hyx, hxy] at hb
        · have hxe : x = y := le_antisymm (not_lt.mp hyx) (not_lt.mp hxy)
          simp only [hxy, hyx, if_false] at ha hb
          rw [hxe, ih ys ha hb]

theorem charListLt_trans :
    ∀ a b c, charListLt a b = true → charListLt b c = true → charListLt a c = true := by
  intro a
  induction a with
  | nil =>
    intro b c hab hbc
    cases b with
    | nil => simp [charListLt] at hab
    | cons y ys =>
      cases c with
      | nil => simp [charListLt] at hbc
      | cons z zs => rfl
  | cons x xs ih =>
    intro b c hab hbc
    cases b with
    | nil => simp [charListLt] at hab
    | cons y ys =>
      cases c with
      | nil => simp [charListLt] at hbc
      | cons z zs =>
        simp only [charListLt] at hab hbc ⊢
        by_cases hxy : x < y
        · by_cases hyz : y < z
          · simp [lt_trans hxy hyz]
          · by_cases hzy : z < y
            · simp [hyz, hzy] at hbc
            · have : y = z := le_antisymm (not_lt.mp hzy) (not_lt.mp hyz)
              subst this
              simp [hxy]
        · by_cases hyx : y < x
          · simp [hxy, hyx] at hab
          · have hxe : x = y := le_antisymm (not_lt.mp hyx) (not_lt.mp hxy)
            subst hxe
            simp only [lt_irrefl, if_false] at hab
            by_cases hxz : x < z
            · simp [hxz]
            · by_cases hzx : z < x
              · simp [hxz, hzx] at hbc
              · simp only [hxz, hzx, if_false] at hbc ⊢
                exact ih ys zs hab hbc

theorem strLeB_total : ∀ a b : String, strLeB a b = true ∨ strLeB b a = true := by
  intro a b
  by_cases h : charListLt b.data a.data = true
  · right
    simp [strLeB, strLtB, charListLt_asymm _ _ h]
  · left
    simp only [strLeB, strLtB, Bool.not_eq_true'] at *
    simp [Bool.not_eq_true] at h ⊢
    exact h

theorem strLeB_antisymm : ∀ a b : String, strLeB a b = true → strLeB b a = true → a = b := by
  intro a b hab hba
  simp only [strLeB, strLtB, Bool.not_eq_true', Bool.not_eq_true] at hab hba
  exact String.ext (charListLt_eq_of_not _ _ hba hab)

theorem strLeB_trans : ∀ a b c : String, strLeB a b = true → strLeB b c = true → strLeB a c = true := by
  intro a b c hab hbc
  simp only [strLeB, strLtB, Bool.not_eq_true'] at hab hbc ⊢
  by_contra hca
  simp only [Bool.not_eq_false] at hca
  by_cases hcb : charListLt c.data b.data = true
  · rw [hcb] at hbc; exact Bool.false_ne_true hbc.symm
  · by_cases hbc' : charListLt b.data c.data = true
    · have := charListLt_trans _ _ _ hbc' hca
      rw [this] at hab; exact Bool.false_ne_true hab.symm
    · have heq : b.data = c.data :=
        charListLt_eq_of_not _ _ (Bool.not_eq_true _ ▸ hbc') (Bool.not_eq_true _ ▸ hcb)
      rw [← heq] at hca
      rw [hca] at hab
      exact Bool.false_ne_true hab.symm

/-- Insertion of `x` into `l` before the first element `y` with `le x y`. -/
def insertBy (le : α → α → Bool) (x : α) : List α → List α
  | [] => [x]
  | y :: ys => if le x y then x :: y :: ys else y :: insertBy le x ys

/-- Insertion sort with a boolean comparator; used to embed Go's
`sort.Strings` / `slices.Sort` / `slices.SortFunc` and SQL `ORDER BY`
(any correct sort produces the same list on key-distinct inputs). -/
def sortBy (le : α → α → Bool) : List α → List α
  | [] => []
  | x :: xs => insertBy le x (sortBy le xs)

theorem insertBy_perm (le : α → α → Bool) (x : α) :
    ∀ l : List α, (insertBy le x l).Perm (x :: l) := by
  intro l
  induction l with
  | nil => simp [insertBy]
  | cons y ys ih =>
    by_cases h : le x y
    · simp [insertBy, h]
    · simp only [insertBy, h, if_false]
      exact (List.Perm.cons y ih).trans (List.Perm.swap x y ys)

theorem sortBy_perm (le : α → α → Bool) : ∀ l : List α, (sortBy le l).Perm l := by
  intro l
  induction l with
  | nil => simp [sortBy]
  | cons x xs ih =>
    exact ((insertBy_perm le x (sortBy le xs)).trans (List.Perm.cons x ih))

theorem mem_sortBy (le : α → α → Bool) (a : α) (l : List α) :
    a ∈ sortBy le l ↔ a ∈ l :=
  (sortBy_perm le l).mem_iff

theorem mem_insertBy (le : α → α → Bool) (a x : α) (l : List α) :
    a ∈ insertBy le x l ↔ a = x ∨ a ∈ l := by
  rw [(insertBy_perm le x l).mem_iff]
  simp

theorem pairwise_insertBy (le : α → α → Bool)
    (htotal : ∀ a b, le a b = true ∨ le b a = true)
    (htrans : ∀ a b c, le a b = true → le b c = true → le a c = true)
    (x : α) (l : List α)
    (h : l.Pairwise (fun a b => le a b = true)) :
    (insertBy le x l).Pairwise (fun a b => le a b = true) := by
  induction l with
  | nil => simp [insertBy]
  | cons y ys ih =>
    rcases List.pairwise_cons.mp h with ⟨hy, hys⟩
    by_cases hxy : le x y
    · rw [insertBy, if_pos hxy]
      refine List.pairwise_cons.mpr ⟨?_, h⟩
      intro b hb
      rcases List.mem_cons.mp hb with hb | hb
      · exact hb ▸ hxy
      · exact htrans x y b hxy (hy b hb)
    · rw [insertBy, if_neg hxy]
      refine List.pairwise_cons.mpr ⟨?_, ih hys⟩
      intro b hb
      rcases (mem_insertBy le b x ys).mp hb with hb | hb
      · rcases htotal x y with hx | hx
        · exact absurd hx hxy
        · exact hb ▸ hx
      · exact hy b hb

theorem pairwise_sortBy (le : α → α → Bool)
    (htotal : ∀ a b, le a b = true ∨ le b a = true)
    (htrans : ∀ a b c, le a b = true → le b c = true → le a c = true)
    (l : List α) :
    (sortBy le l).Pairwise (fun a b => le a b = true) := by
  induction l with
  | nil => simp [sortBy]
  | cons x xs ih => exact pairwise_insertBy le htotal htrans x (sortBy le xs) ih

theorem nodup_sortBy (le : α → α → Bool) (l : List α) (h : l.Nodup) :
    (sortBy le l).Nodup :=
  (sortBy_perm le l).symm.nodup h

/-! ### `digestmap.go`: `DigestMap`, `PathMap`, canonical state hash

`DigestMap` (`map[string][]string`, digest → paths) and `PathMap`
(`map[string]string`, path → digest) are embedded as association lists.
Go map iteration order is unspecified; the embedding iterates in list
order. -/

/-- `DigestMap` from digestmap.go: a map of unique digests to paths. -/
abbrev DigestMap := List (String × List String)

/-- `PathMap` from digestmap.go: a map of unique paths to digests. -/
abbrev PathMap := List (String × String)

/-- Lookup `m[p]` for a `PathMap` embedded as an association list. -/
def PathMap.lookup (m : PathMap) (p : String) : Option String :=
  (m.find? (fun e => e.1 = p)).map (·.2)

/-- `DigestMap.Paths` from digestmap.go: the sequence of path/digest pairs
obtained by iterating digests and, within one digest, its paths. -/
def DigestMap.pathsSeq (m : DigestMap) : List (String × String) :=
  m.flatMap (fun dp => dp.2.map (fun p => (p, dp.1)))

/-- `maps.Collect` over a path/digest sequence: later assignments to the
same key overwrite earlier ones, and the result has unique keys. -/
def collectPathMap (l : List (String × String)) : PathMap :=
  l.foldl (fun acc pd => acc.filter (fun e => e.1 ≠ pd.1) ++ [pd]) []

/-- `DigestMap.PathMap` from digestmap.go:
`PathMap(maps.Collect(m.Paths()))`. -/
def DigestMap.toPathMap (m : DigestMap) : PathMap :=
  collectPathMap m.pathsSeq

/-- `DigestMap.AllPaths` from digestmap.go: sorted slice of all paths. -/
def DigestMap.allPaths (m : DigestMap) : List String :=
  sortBy strLeB (m.flatMap (fun dp => dp.2))

/-- The bytes written into the SHA-512 hasher by `PathMap.Hash`
(digestmap.go lines 65–76): for each path in ascending order,
`path + " " + m[path] + "\n"`. -/
def PathMap.hashInput (m : PathMap) : String :=
  (sortBy strLeB (m.map (·.1))).foldl
    (fun acc p => acc ++ (p ++ " " ++ ((PathMap.lookup m p).getD "") ++ "\n")) ""

/-- `PathMap.Hash` from digestmap.go, with the external
`crypto/sha512 + encoding/hex` collaborator abstracted as `sha`. -/
def PathMap.Hash (sha : String → String) (m : PathMap) : String :=
  sha (PathMap.hashInput m)

/-- `DigestMap.Hash` from digestmap.go: `m.PathMap().Hash()`. -/
def DigestMap.Hash (sha : String → String) (m : DigestMap) : String :=
  PathMap.Hash sha m.toPathMap

/-- Concatenation of a list of strings, in order. -/
def concatStrs : List String → String
  | [] => ""
  | s :: rest => s ++ concatStrs rest

/-- Modelled from the spec (§4.6), for comparison with `PathMap.hashInput`:
the concatenation, over the paths of the map in ascending order, of
`path || " " || digest || "\n"`. -/
def specStateDigestInput (m : PathMap) : String :=
  concatStrs ((sortBy strLeB (m.map (·.1))).map
    (fun p => p ++ " " ++ ((PathMap.lookup m p).getD "") ++ "\n"))

theorem foldl_append_concatStrs (f : α → String) :
    ∀ (l : List α) (acc : String),
      l.foldl (fun a x => a ++ f x) acc = acc ++ concatStrs (l.map f) := by
  intro l
  induction l with
  | nil => intro acc; simp [concatStrs]
  | cons x xs ih =>
    intro acc
    simp only [List.foldl_cons, List.map_cons, concatStrs, ih, String.append_assoc]

/-- The accumulated hasher input equals the spec's concatenation. -/
theorem hashInput_eq_spec (m : PathMap) :
    PathMap.hashInput m = specStateDigestInput m := by
  unfold PathMap.hashInput specStateDigestInput
  rw [foldl_append_concatStrs, String.empty_append]

theorem lookup_isSome_iff_mem_keys (m : PathMap) (p : String) :
    (PathMap.lookup m p).isSome ↔ p ∈ m.map (·.1) := by
  unfold PathMap.lookup
  rw [show ∀ o : Option (String × String), (o.map (·.2)).isSome = o.isSome by
    intro o; cases o <;> rfl]
  rw [List.find?_isSome]
  constructor
  · rintro ⟨e, he, hp⟩
    simp only [decide_eq_true_eq] at hp
    exact hp ▸ List.mem_map.mpr ⟨e, he, rfl⟩
  · intro hp
    rcases List.mem_map.mp hp with ⟨e, he, hp⟩
    exact ⟨e, he, by simp [hp]⟩

/-- Maps with the same lookup content have the same sorted key list. -/
theorem sorted_keys_eq_of_lookup_eq (m1 m2 : PathMap)
    (hn1 : (m1.map (·.1)).Nodup) (hn2 : (m2.map (·.1)).Nodup)
    (h : ∀ p, PathMap.lookup m1 p = PathMap.lookup m2 p) :
    sortBy strLeB (m1.map (·.1)) = sortBy strLeB (m2.map (·.1)) := by
  haveI : IsAntisymm String (fun a b => strLeB a b = true) := ⟨strLeB_antisymm⟩
  apply List.eq_of_perm_of_sorted (r := fun a b => strLeB a b = true)
  · apply (List.perm_ext_iff_of_nodup (nodup_sortBy _ _ hn1) (nodup_sortBy _ _ hn2)).mpr
    intro p
    rw [mem_sortBy, mem_sortBy, ← lookup_isSome_iff_mem_keys, ← lookup_isSome_iff_mem_keys, h p]
  · exact pairwise_sortBy strLeB strLeB_total strLeB_trans _
  · exact pairwise_sortBy strLeB strLeB_total strLeB_trans _

/-! ### Go / sqlite string helpers

These embed the external standard-library functions the code uses:
`strings.TrimPrefix`, `strings.Cut`, `io/fs.ValidPath` and sqlite's
`LIKE` (ASCII-case-insensitive; the `dir` argument is assumed free of
the `%`/`_` wildcard characters). -/

def lowerChar (c : Char) : Char :=
  if 'A' ≤ c ∧ c ≤ 'Z' then Char.ofNat (c.toNat + 32) else c

def lowerStr (s : String) : String := ⟨s.data.map lowerChar⟩

def strStartsWith (s pre : String) : Bool := List.isPrefixOf pre.data s.data

/-- sqlite `path LIKE dir || '/%'` for a wildcard-free `dir`:
ASCII-case-insensitive prefix match on `dir ++ "/"`. -/
def sqlLikeDirMatch (dir : String) (p : String) : Bool :=
  strStartsWith (lowerStr p) (lowerStr (dir ++ "/"))

/-- The path constraint of `list_object_version_files.sql`
(`(?4 = '' OR ?4 = '.') OR f.path LIKE ?4 || '/%'`). -/
def dirFilter (dir : String) (p : String) : Bool :=
  if dir = "" ∨ dir = "." then true else sqlLikeDirMatch dir p

/-- `strings.TrimPrefix(s, pre)`. -/
def goTrimPref (s pre : String) : String :=
  if List.isPrefixOf pre.data s.data then ⟨s.data.drop pre.data.length⟩ else s

/-- `strings.Cut(s, "/")`: the part before the first `/` and whether a
`/` was found (the part after is unused by `ReadVersionDir`). -/
def cutSlash : List Char → (List Char × Bool)
  | [] => ([], false)
  | c :: cs =>
    if c = '/' then ([], true)
    else
      let r := cutSlash cs
      (c :: r.1, r.2)

/-- Split a character list at `/` separators. -/
def splitSlash : List Char → List (List Char)
  | [] => [[]]
  | c :: cs =>
    let r := splitSlash cs
    if c = '/' then [] :: r
    else
      match r with
      | h :: t => (c :: h) :: t
      | [] => [[c]]

/-- `io/fs.ValidPath`: `"."` is valid (the root); otherwise each
slash-separated element must be nonempty and must not be `.` or `..`
(so the empty path, leading/trailing slashes and `//` are invalid). -/
def validPath (s : String) : Bool :=
  s = "." || (splitSlash s.data).all
    (fun comp => !(comp = [] || comp = ['.'] || comp = ['.', '.']))

/-! ### Data model: the per-object rows of `migrate.sql`

One object's slice of the tables `ocfl_object_versions`,
`ocfl_object_version_files` and `ocfl_object_files`.  A version-file
row stores its content reference denormalized as the content digest
(`insert_object_version_file.sql` resolves `content_id` from the digest;
queries join the content row back). -/

/-- Row of `ocfl_object_versions` for one object. -/
structure VRow where
  vnum : Nat
  stateDigest : String
  createdAt : Int
  userName : String
  userAddr : String
  message : String
deriving DecidableEq, Repr

/-- Row of `ocfl_object_version_files` for one object, with the content
reference carried as the digest. -/
structure VFRow where
  vnum : Nat
  path : String
  digest : String
  isDeleted : Bool
deriving DecidableEq, Repr

/-- Row of `ocfl_object_files` (manifest entry): content path, digest,
size in bytes (`-1` = unknown). -/
structure FileRow where
  path : String
  digest : String
  size : Int
deriving DecidableEq, Repr

/-- The indexed rows of a single object. -/
structure ObjDB where
  files : List FileRow
  versions : List VRow
  vfiles : List VFRow
deriving DecidableEq, Repr

def emptyDB : ObjDB := ⟨[], [], []⟩

/-! ### Query embeddings -/

/-- `get_object_version.sql`: the version row with the given number. -/
def getVersion (db : ObjDB) (vn : Nat) : Option VRow :=
  db.versions.find? (fun v => v.vnum = vn)

/-- Content-file lookup by digest (the subquery of
`insert_object_version_file.sql` and the join of the listing queries). -/
def fileByDigest (files : List FileRow) (d : String) : Option FileRow :=
  files.find? (fun f => f.digest = d)

/-- Keep the candidate with the greater `vnum` (ties — impossible under
the schema's UNIQUE(version_id, path) — keep `r`). -/
def pickLater (r : VFRow) : Option VFRow → Option VFRow
  | none => some r
  | some r2 => if r.vnum < r2.vnum then some r2 else some r

/-- The row with the greatest `vnum ≤ vn` among rows for path `p`
(`MAX(v.vnum)` of the `latest_file` CTE, and the
`ORDER BY mod_vnum DESC LIMIT 1` of `get_object_version_file.sql`). -/
def latestRow : List VFRow → Nat → String → Option VFRow
  | [], _, _ => none
  | r :: rs, vn, p =>
    if r.path = p ∧ r.vnum ≤ vn then pickLater r (latestRow rs vn p)
    else latestRow rs vn p

/-- The version state at `vn` as a partial path → digest map: the digest
of the latest row at or before `vn`, unless that row is a tombstone. -/
def stateAt (rows : List VFRow) (vn : Nat) (p : String) : Option String :=
  match latestRow rows vn p with
  | some r => if r.isDeleted then none else some r.digest
  | none => none

/-- The distinct paths having any version-file row at or before `vn` and
matching the directory constraint, in ascending (byte) order — the
grouped paths of the `latest_file` CTE with the query's `ORDER BY`. -/
def pathsUpTo (rows : List VFRow) (vn : Nat) (dir : String) : List String :=
  sortBy strLeB
    (((rows.filter (fun r => r.vnum ≤ vn && dirFilter dir r.path)).map (·.path)).dedup)

/-- One row yielded by `ListVersionFiles` (ocflite.go 866–897): the
columns of `list_object_version_files.sql` plus the ResultFunc's size
normalization (`size < 0` ⇒ `HasSize=false, Size=0`). -/
structure VFInfo where
  path : String
  contentPath : String
  digest : String
  modVnum : Nat
  modTime : Int
  size : Int
  hasSize : Bool
  isDeleted : Bool
deriving DecidableEq, Repr

def mkVFInfo (db : ObjDB) (r : VFRow) : VFInfo :=
  let sz := ((fileByDigest db.files r.digest).map (·.size)).getD (-1)
  { path := r.path
    contentPath := ((fileByDigest db.files r.digest).map (·.path)).getD ""
    digest := r.digest
    modVnum := r.vnum
    modTime := ((getVersion db r.vnum).map (·.createdAt)).getD 0
    size := if sz < 0 then 0 else sz
    hasSize := !(decide (sz < 0))
    isDeleted := r.isDeleted }

/-- `ListVersionFiles`: for every matching path in ascending order, the
row of its most recent modification at or before `vn`. -/
def listVersionFiles (db : ObjDB) (vn : Nat) (dir : String) : List VFInfo :=
  (pathsUpTo db.vfiles vn dir).filterMap
    (fun p => (latestRow db.vfiles vn p).map (mkVFInfo db))

/-- `GetVersionState` (ocflite.go 483–496) followed by the `.PathMap()`
conversion its callers apply: the live path → digest pairs of the
version state. -/
def getVersionState (db : ObjDB) (vn : Nat) : PathMap :=
  (listVersionFiles db vn ".").filterMap
    (fun f => if f.isDeleted then none else some (f.path, f.digest))

/-! ### Write pipeline: `SetObject` and its helpers -/

/-- `Version` from ocflite.go: input for one version of an object.
`Created` is the Unix timestamp (`version.Created.Unix()`). -/
structure Version where
  State : DigestMap
  Message : String
  UserName : String
  UserAddr : String
  Created : Int

/-- `Object` from ocflite.go: input of `SetObject` (fields not touching
the per-object rows modelled here are omitted). -/
structure Object where
  ID : String
  Versions : List Version
  Manifest : DigestMap

/-- `insert_object_version_file.sql`: append one version-file row. -/
def insertVersionFile (db : ObjDB) (vn : Nat) (digest p : String) (isDel : Bool) : ObjDB :=
  { db with vfiles := db.vfiles ++ [⟨vn, p, digest, isDel⟩] }

/-- `delete_object_version_files.sql`: drop the rows of version `vn`. -/
def deleteObjectVersionFiles (db : ObjDB) (vn : Nat) : ObjDB :=
  { db with vfiles := db.vfiles.filter (fun r => r.vnum ≠ vn) }

/-- The non-tombstone rows inserted by `setObjectVersionState`: one row
per path of the new state that is absent from the previous state or has
a changed digest (every path when there is no previous state). -/
def insertsRows (vn : Nat) (prevPaths : Option PathMap) (statePM : PathMap) : List VFRow :=
  statePM.filterMap (fun pd =>
    match prevPaths with
    | some prev =>
      match PathMap.lookup prev pd.1 with
      | some d0 => if d0 = pd.2 then none else some ⟨vn, pd.1, pd.2, false⟩
      | none => some ⟨vn, pd.1, pd.2, false⟩
    | none => some ⟨vn, pd.1, pd.2, false⟩)

/-- The tombstone rows inserted by `setObjectVersionState`: one row per
previous path absent from the new state, carrying the previous digest. -/
def tombRows (vn : Nat) (prevPaths : Option PathMap) (statePM : PathMap) : List VFRow :=
  (prevPaths.getD []).filterMap (fun pd =>
    if (PathMap.lookup statePM pd.1).isNone then some ⟨vn, pd.1, pd.2, true⟩ else none)

/-- `setObjectVersionState` (ocflite.go 801–839): delete existing rows at
`vn`, read the previous version's state (when `vn > 1`), then insert the
new/changed-path rows followed by the tombstone rows. -/
def setObjectVersionState (db : ObjDB) (vn : Nat) (state : DigestMap) : ObjDB :=
  let statePM := state.toPathMap
  let db1 := deleteObjectVersionFiles db vn
  let prevPaths : Option PathMap :=
    if 1 < vn then some (getVersionState db1 (vn - 1)) else none
  { db1 with vfiles :=
      db1.vfiles ++ insertsRows vn prevPaths statePM ++ tombRows vn prevPaths statePM }

/-- `upsert_object_version.sql`: insert or replace by `vnum`. -/
def upsertObjectVersion (vs : List VRow) (row : VRow) : List VRow :=
  if vs.any (fun v => v.vnum = row.vnum) then
    vs.map (fun v => if v.vnum = row.vnum then row else v)
  else vs ++ [row]

/-- `setObjectVersion` (ocflite.go 768–796): read the previously stored
state digest (empty string when the version row is absent), upsert the
version row with the new digest, and rewrite the version's file rows
only when the digest changed. -/
def setObjectVersion (sha : String → String) (db : ObjDB) (vn : Nat) (version : Version) : ObjDB :=
  let existingStateDigest := ((getVersion db vn).map (·.stateDigest)).getD ""
  let newStateDigest := DigestMap.Hash sha version.State
  let newRow : VRow :=
    ⟨vn, newStateDigest, version.Created, version.UserName, version.UserAddr, version.Message⟩
  let db1 : ObjDB := { db with versions := upsertObjectVersion db.versions newRow }
  if newStateDigest ≠ existingStateDigest then setObjectVersionState db1 vn version.State
  else db1

/-- `deleteObjectVersion` (ocflite.go 841–853). -/
def deleteObjectVersion (db : ObjDB) (vn : Nat) : ObjDB :=
  let db1 := deleteObjectVersionFiles db vn
  { db1 with versions := db1.versions.filter (fun v => v.vnum ≠ vn) }

/-- The indexed loop of `setObjectVersions`: apply `setObjectVersion` to
each version with numbers `vn, vn+1, …`. -/
def setVersionsLoop (sha : String → String) (db : ObjDB) (vn : Nat) : List Version → ObjDB
  | [] => db
  | v :: rest => setVersionsLoop sha (setObjectVersion sha db vn v) (vn + 1) rest

/-- `setObjectVersions` (ocflite.go 749–766): write versions `1..n` then
delete any higher-numbered versions left from a previous index. -/
def setObjectVersions (sha : String → String) (db : ObjDB) (versions : List Version) : ObjDB :=
  let existingCount := db.versions.length
  let db1 := setVersionsLoop sha db 1 versions
  (List.range' (versions.length + 1) (existingCount - versions.length)).foldl
    deleteObjectVersion db1

/-- `upsert_object_file.sql`: insert a manifest entry or update it,
keeping the previous size when the incoming size is negative. -/
def upsertObjectFile (files : List FileRow) (p d : String) (size : Int) : List FileRow :=
  if files.any (fun f => f.path = p) then
    files.map (fun f => if f.path = p then ⟨p, d, if size < 0 then f.size else size⟩ else f)
  else files ++ [⟨p, d, size⟩]

/-- `setObjectFiles` (ocflite.go 712–739): upsert every manifest entry
with the unknown-size sentinel `-1`, then delete entries whose content
path is no longer in the manifest. -/
def setObjectFiles (files : List FileRow) (manifest : DigestMap) : List FileRow :=
  let pairs := manifest.pathsSeq
  let files1 := pairs.foldl (fun fs pd => upsertObjectFile fs pd.1 pd.2 (-1)) files
  files1.filter (fun f => pairs.any (fun pd => pd.1 = f.path))

/-- `set_object_file_size.sql` / `SetObjectFileSize` (ocflite.go
416–427): set the size of every content file with the given digest. -/
def setObjectFileSize (files : List FileRow) (digest : String) (size : Int) : List FileRow :=
  files.map (fun f => if f.digest = digest then ⟨f.path, f.digest, size⟩ else f)

/-- The row mutations of `SetObject` (ocflite.go 198–227) on one
object's rows: upsert manifest entries, then write the versions.  (The
object-row upsert touches only object metadata outside this model; the
error control flow, including the failed-`setRoot` path, is modelled
separately by `setObjectOutcome`.) -/
def setObjectModel (sha : String → String) (db : ObjDB) (obj : Object) : ObjDB :=
  let db1 : ObjDB := { db with files := setObjectFiles db.files obj.Manifest }
  setObjectVersions sha db1 obj.Versions

/-! ### Go error values

`GoErr.notFound` is the sentinel `ocflite.ErrNotFound`;
`GoErr.accessNotFound` is the distinct sentinel `access.ErrNotFound`;
`wrap` is `fmt.Errorf("…: %w", err)` (unwrappable);
`errMsg` is any error with no unwrap chain, in particular the result of
`fmt.Errorf` with `%v`/`%q`, which formats the cause into the message
and severs the chain. -/

inductive GoErr where
  | notFound
  | accessNotFound
  | errMsg (msg : String)
  | wrap (msg : String) (inner : GoErr)
deriving DecidableEq, Repr

/-- `errors.Is(e, target)`: `e` equals the target or some error in its
unwrap chain does. -/
def errorsIs : GoErr → GoErr → Bool
  | .wrap m inner, t => decide (GoErr.wrap m inner = t) || errorsIs inner t
  | e, t => decide (e = t)

instance {ε α : Type} [DecidableEq ε] [DecidableEq α] : DecidableEq (Except ε α) := fun a b =>
  match a, b with
  | .ok x, .ok y =>
    if h : x = y then .isTrue (by rw [h])
    else .isFalse (fun hc => h (by injection hc))
  | .error x, .error y =>
    if h : x = y then .isTrue (by rw [h])
    else .isFalse (fun hc => h (by injection hc))
  | .ok _, .error _ => .isFalse (fun hc => by injection hc)
  | .error _, .ok _ => .isFalse (fun hc => by injection hc)

/-- `GetVersion` (ocflite.go 429–454).  When no row matches, the code
sets `err = ErrNotFound` but then returns
`fmt.Errorf("getting object version: %v", err)` — a `%v` format, so the
returned error has no unwrap chain back to the sentinel. -/
def getVersionE (db : ObjDB) (vn : Nat) : Except GoErr VRow :=
  match db.versions.find? (fun v => v.vnum = vn) with
  | some v => .ok v
  | none => .error (.errMsg "getting object version: not found")

/-- `DB.GetObjectVersion` (access/sqlite/sqlite.go 113–127): translate
errors matching `ocflite.ErrNotFound` into `access.ErrNotFound`. -/
def dbGetObjectVersion (db : ObjDB) (vn : Nat) : Except GoErr VRow :=
  match getVersionE db vn with
  | .ok v => .ok v
  | .error e => if errorsIs e .notFound then .error .accessNotFound else .error e

/-- The error control flow of `SetObject` (ocflite.go 198–227),
parametrized by the outcomes of its four steps.  Mirrors the source
exactly: a failed `setRoot` hits `return nil` (line 201). -/
def setObjectOutcome (rootRes upsertRes filesRes versionsRes : Except GoErr Unit) :
    Except GoErr Unit :=
  match rootRes with
  | .error _ => .ok ()
  | .ok _ =>
    match upsertRes with
    | .error e => .error (.wrap "setting object in database" e)
    | .ok _ =>
      match filesRes with
      | .error e => .error (.wrap "setting object files in database" e)
      | .ok _ =>
        match versionsRes with
        | .error e => .error (.wrap "setting object versions in database" e)
        | .ok _ => .ok ()

/-! ### Read operations: diff, directory listing, stat -/

inductive ModType where
  | FileAdded
  | FileModified
  | FileDeleted
deriving DecidableEq, Repr

structure FileChange where
  Path : String
  modType : ModType
deriving DecidableEq, Repr

structure VersionChanges where
  FromVnum : Nat
  ToVnum : Nat
  Changes : List FileChange
deriving DecidableEq, Repr

/-- `GetVersionChanges` (ocflite.go 503–598). -/
def getVersionChanges (db : ObjDB) (fromVN toVN : Nat) : Except GoErr VersionChanges :=
  if toVN < 1 then .error (.errMsg "invalid version numbers")
  else if (getVersion db toVN).isNone then
    .error (.wrap "to version" (.errMsg "getting object version: not found"))
  else if 0 < fromVN ∧ (getVersion db fromVN).isNone then
    .error (.wrap "from version" (.errMsg "getting object version: not found"))
  else if fromVN = toVN then .ok ⟨fromVN, toVN, []⟩
  else
    let fromPaths : PathMap := if fromVN = 0 then [] else getVersionState db fromVN
    let toPaths := getVersionState db toVN
    let addsMods : List FileChange := toPaths.filterMap (fun pd =>
      match PathMap.lookup fromPaths pd.1 with
      | none => some ⟨pd.1, .FileAdded⟩
      | some d0 => if d0 ≠ pd.2 then some ⟨pd.1, .FileModified⟩ else none)
    let dels : List FileChange := fromPaths.filterMap (fun pd =>
      if (PathMap.lookup toPaths pd.1).isNone then some ⟨pd.1, .FileDeleted⟩ else none)
    .ok ⟨fromVN, toVN, sortBy (fun a b => strLeB a.Path b.Path) (addsMods ++ dels)⟩

/-- `VersionDirEntry` from ocflite.go. -/
structure VersionDirEntry where
  Name : String
  Digest : String
  ModVNum : Nat
  Modtime : Int
  Size : Int
  HasSize : Bool
  IsDir : Bool
deriving DecidableEq, Repr

/-- The create-new-entry arm of the `ReadVersionDir` loop: deleted rows
that do not merge into the last entry produce no entry. -/
def rvdNew (entries : List VersionDirEntry) (file : VFInfo) (entryName : String)
    (isDir : Bool) : List VersionDirEntry :=
  if !file.isDeleted then
    entries ++ [{ Name := entryName
                  IsDir := isDir
                  Digest := if isDir then "" else file.digest
                  ModVNum := file.modVnum
                  Modtime := file.modTime
                  Size := file.size
                  HasSize := file.hasSize }]
  else entries

/-- One iteration of the `ReadVersionDir` loop (ocflite.go 611–653). -/
def rvdStep (dir : String) (entries : List VersionDirEntry) (file : VFInfo) :
    List VersionDirEntry :=
  let relPath := goTrimPref file.path (dir ++ "/")
  let cut := cutSlash relPath.data
  let entryName : String := ⟨cut.1⟩
  let isDir := cut.2
  match entries.getLast? with
  | some lastEntry =>
    if lastEntry.Name = entryName then
      let e1 := if lastEntry.ModVNum < file.modVnum then
          { lastEntry with ModVNum := file.modVnum, Modtime := file.modTime }
        else lastEntry
      let e2 := if !file.isDeleted then
          { e1 with HasSize := e1.HasSize && file.hasSize, Size := e1.Size + file.size }
        else e1
      entries.dropLast ++ [e2]
    else rvdNew entries file entryName isDir
  | none => rvdNew entries file entryName isDir

/-- `ReadVersionDir` (ocflite.go 603–661). -/
def readVersionDir (db : ObjDB) (vn : Nat) (dir0 : String) :
    Except GoErr (List VersionDirEntry) :=
  let dir := if dir0 = "" then "." else dir0
  if !validPath dir then .error (.errMsg "invalid object version directory")
  else
    let entries := (listVersionFiles db vn dir).foldl (rvdStep dir) []
    if entries.length < 1 ∧ dir ≠ "." then
      .error (.wrap "with object version directory" .notFound)
    else .ok entries

/-- `VersionFileInfo` from ocflite.go (the unexported `isDeleted` field
is never set on `StatVersionFile` results). -/
structure VersionFileInfo where
  Path : String
  ContentPath : String
  Digest : String
  ModVnum : Nat
  Modtime : Int
  Size : Int
  HasSize : Bool
deriving DecidableEq, Repr

/-- `StatVersionFile` (ocflite.go 665–707). -/
def statVersionFile (db : ObjDB) (vn : Nat) (name : String) :
    Except GoErr VersionFileInfo :=
  if !validPath name ∨ name = "." ∨ name = "" then
    .error (.errMsg "invalid version state file name")
  else
    match getVersionE db vn with
    | .error e => .error e
    | .ok _ =>
      match latestRow db.vfiles vn name with
      | none => .error (.wrap "stat version file" .notFound)
      | some r =>
        if r.isDeleted then .error (.wrap "stat version file" .notFound)
        else
          let info := mkVFInfo db r
          .ok ⟨name, info.contentPath, info.digest, info.modVnum, info.modTime,
               info.size, info.hasSize⟩

/-! ### Claim C2 -/

theorem specInput_eq_of_lookup_eq (m1 m2 : PathMap)
    (hn1 : (m1.map (·.1)).Nodup) (hn2 : (m2.map (·.1)).Nodup)
    (h12 : ∀ p, PathMap.lookup m1 p = PathMap.lookup m2 p) :
    specStateDigestInput m1 = specStateDigestInput m2 := by
  unfold specStateDigestInput
  rw [sorted_keys_eq_of_lookup_eq m1 m2 hn1 hn2 h12]
  congr 1
  apply List.map_congr_left
  intro p _
  rw [h12 p]

/-- C2: for every path→digest map, `PathMap.Hash` (and `DigestMap.Hash`)
equals the SHA-512 hex digest — here the abstract external hasher
`sha` — of the concatenation, over paths in ascending order, of
`path ++ " " ++ digest ++ "\n"`; consequently maps with identical
path→digest content produce the same state digest. -/
theorem c2_state_digest_canonical (sha : String → String) (m : PathMap) (dm : DigestMap)
    (m1 m2 : PathMap) (hn1 : (m1.map (·.1)).Nodup) (hn2 : (m2.map (·.1)).Nodup)
    (h12 : ∀ p, PathMap.lookup m1 p = PathMap.lookup m2 p) :
    PathMap.Hash sha m = sha (specStateDigestInput m)
    ∧ DigestMap.Hash sha dm = sha (specStateDigestInput dm.toPathMap)
    ∧ PathMap.Hash sha m1 = PathMap.Hash sha m2 := by
  refine ⟨?_, ?_, ?_⟩
  · rw [PathMap.Hash, hashInput_eq_spec]
  · rw [DigestMap.Hash, PathMap.Hash, hashInput_eq_spec]
  · rw [PathMap.Hash, PathMap.Hash, hashInput_eq_spec, hashInput_eq_spec,
      specInput_eq_of_lookup_eq m1 m2 hn1 hn2 h12]

theorem c2_state_digest_canonical_witness :
    ((([("a", "d0"), ("b", "d1")] : PathMap).map (·.1)).Nodup)
    ∧ (PathMap.Hash (fun s => s) [("b", "d1")] = specStateDigestInput [("b", "d1")]
      ∧ DigestMap.Hash (fun s => s) [("d0", ["a"])]
          = specStateDigestInput (DigestMap.toPathMap [("d0", ["a"])])
      ∧ PathMap.Hash (fun s => s) [("a", "d0"), ("b", "d1")]
          = PathMap.Hash (fun s => s) [("a", "d0"), ("b", "d1")]) :=
  ⟨by decide,
    c2_state_digest_canonical (fun s => s) [("b", "d1")] [("d0", ["a"])]
      [("a", "d0"), ("b", "d1")] [("a", "d0"), ("b", "d1")]
      (by decide) (by decide) (fun _ => rfl)⟩

/-! ### Claims C9 and C8: error propagation -/

/-- C9 (refuting): when the `setRoot` step of `SetObject` fails, the
function returns success — ocflite.go line 201 reads `return nil` where
the error should be returned.  All later steps do propagate errors. -/
theorem c9_setObject_swallows_setRoot_error :
    setObjectOutcome (.error (.errMsg "creating root row: disk I/O error"))
      (.ok ()) (.ok ()) (.ok ()) = .ok ()
    ∧ (∀ e, setObjectOutcome (.ok ()) (.error e) (.ok ()) (.ok ())
        = .error (.wrap "setting object in database" e))
    ∧ (∀ e, setObjectOutcome (.ok ()) (.ok ()) (.error e) (.ok ())
        = .error (.wrap "setting object files in database" e))
    ∧ (∀ e, setObjectOutcome (.ok ()) (.ok ()) (.ok ()) (.error e)
        = .error (.wrap "setting object versions in database" e)) :=
  ⟨rfl, fun _ => rfl, fun _ => rfl, fun _ => rfl⟩

/-- C8 (refuting): querying version 2 of an object whose head is 1,
`GetVersion` returns an error that does not match `ocflite.ErrNotFound`
under `errors.Is` — ocflite.go line 451 wraps with `%v`, severing the
unwrap chain — so `DB.GetObjectVersion` returns the raw error instead of
translating it to `access.ErrNotFound`. -/
theorem c8_missing_version_error_not_sentinel :
    getVersionE ⟨[], [⟨1, "sd", 5, "", "", ""⟩], []⟩ 2
      = .error (.errMsg "getting object version: not found")
    ∧ errorsIs (.errMsg "getting object version: not found") .notFound = false
    ∧ dbGetObjectVersion ⟨[], [⟨1, "sd", 5, "", "", ""⟩], []⟩ 2 ≠ .error .accessNotFound
    ∧ errorsIs (.wrap "getting object version" .notFound) .notFound = true := by
  refine ⟨rfl, rfl, ?_, rfl⟩
  decide

/-! ### Claim C5: directory modifying version -/

/-- An injective hasher standing in for hex-SHA-512; it never returns
the empty string, which `setObjectVersion` uses as the marker for "no
previously stored digest". -/
def shaX (s : String) : String := "#" ++ s

/-- Version states of the C5 scenario: version 1 has
`src/utils/lib1.go` and `src/utils/lib2.go`; version 2 deletes
`lib1.go` — the alphabetically first file of the directory. -/
def c5obj : Object :=
  ⟨"obj",
    [⟨[("d1", ["src/utils/lib1.go"]), ("d2", ["src/utils/lib2.go"])], "", "", "", 100⟩,
     ⟨[("d2", ["src/utils/lib2.go"])], "", "", "", 200⟩],
    [("d1", ["c1"]), ("d2", ["c2"])]⟩

def c5db : ObjDB := setObjectModel shaX emptyDB c5obj

/-- C5 (refuting): after indexing `c5obj`, version 2 holds a tombstone
event for a path under `src/utils/`, yet `ReadVersionDir` at version 2
reports the directory entry `utils` with `ModVNum = 1` (and version 1's
created-at as `Modtime`): the loop in ocflite.go 611–653 drops a
tombstone row when no entry with its name exists yet, so a deletion
that sorts first in its directory group never rolls up. -/
theorem c5_dir_modvnum_misses_first_deletion :
    readVersionDir c5db 2 "src"
      = .ok [⟨"utils", "", 1, 100, 0, false, true⟩]
    ∧ (∃ r ∈ c5db.vfiles, r.isDeleted ∧ r.vnum = 2 ∧ strStartsWith r.path "src/utils/" = true)
    ∧ getVersion c5db 2 ≠ none := by
  refine ⟨rfl, by decide, by decide⟩

/-! ### Claim C10: content-file sizes -/

/-- `get_object_file.sql`: the content-file row with the given path. -/
def getObjectFileRow (files : List FileRow) (p : String) : Option FileRow :=
  files.find? (fun f => f.path = p)

theorem find_map_upd (p d2 : String) (d : String) (s : Int) :
    ∀ files : List FileRow, (⟨p, d, s⟩ : FileRow) ∈ files → (files.map (·.path)).Nodup →
      (files.map (fun f => if f.path = p then (⟨p, d2, f.size⟩ : FileRow) else f)).find?
          (fun f => f.path = p) = some ⟨p, d2, s⟩ := by
  intro files
  induction files with
  | nil => intro h; simp at h
  | cons f0 rest ih =>
    intro hmem hn
    rw [List.map_cons, List.nodup_cons] at hn
    obtain ⟨hf0, hrest⟩ := hn
    by_cases hp : f0.path = p
    · have hf0eq : f0 = ⟨p, d, s⟩ := by
        rcases List.mem_cons.mp hmem with h | h
        · exact h.symm
        · exact absurd (List.mem_map.mpr ⟨_, h, hp.symm⟩) hf0
      rw [List.map_cons, hf0eq]
      simp
    · have hmem' : (⟨p, d, s⟩ : FileRow) ∈ rest := by
        rcases List.mem_cons.mp hmem with h | h
        · exact absurd (congrArg FileRow.path h.symm) hp
        · exact h
      rw [List.map_cons, if_neg hp, List.find?_cons_of_neg _ (by simpa using hp)]
      exact ih hmem' hrest

/-- C10: re-upserting a content file with the sentinel size `-1`
preserves a previously stored non-negative size for that content path
(the digest is still updated), and `SetObjectFileSize` is idempotent
and sets the size of every content path sharing the digest. -/
theorem c10_file_size_preserved_and_idempotent (files : List FileRow) (p d d2 : String)
    (s : Int) (hmem : (⟨p, d, s⟩ : FileRow) ∈ files)
    (hn : (files.map (·.path)).Nodup) (_hs : 0 ≤ s) :
    getObjectFileRow (upsertObjectFile files p d2 (-1)) p = some ⟨p, d2, s⟩
    ∧ (∀ (dg : String) (sz : Int),
        setObjectFileSize (setObjectFileSize files dg sz) dg sz
          = setObjectFileSize files dg sz)
    ∧ (∀ (dg : String) (sz : Int), ∀ f ∈ setObjectFileSize files dg sz,
        f.digest = dg → f.size = sz) := by
  refine ⟨?_, ?_, ?_⟩
  · have hany : files.any (fun f => f.path = p) = true :=
      List.any_eq_true.mpr ⟨⟨p, d, s⟩, hmem, by simp⟩
    rw [upsertObjectFile, if_pos hany, getObjectFileRow]
    have : (fun f : FileRow => if f.path = p then (⟨p, d2, if (-1 : Int) < 0 then f.size else -1⟩ : FileRow) else f)
        = fun f : FileRow => if f.path = p then (⟨p, d2, f.size⟩ : FileRow) else f := by
      funext f
      simp [show ((-1 : Int) < 0) = True from by simp]
    rw [this]
    exact find_map_upd p d2 d s files hmem hn
  · intro dg sz
    simp only [setObjectFileSize, List.map_map]
    apply List.map_congr_left
    intro f _
    by_cases hf : f.digest = dg <;> simp [hf]
  · intro dg sz f hf hd
    simp only [setObjectFileSize] at hf
    rcases List.mem_map.mp hf with ⟨f0, _, heq⟩
    by_cases h0 : f0.digest = dg
    · rw [← heq]; simp [h0]
    · rw [← heq] at hd; simp [h0] at hd

theorem c10_file_size_preserved_and_idempotent_witness :
    ((⟨"c1", "d1", 7⟩ : FileRow) ∈ [(⟨"c1", "d1", 7⟩ : FileRow)]
      ∧ (([(⟨"c1", "d1", 7⟩ : FileRow)].map (·.path)).Nodup) ∧ (0 : Int) ≤ 7)
    ∧ (getObjectFileRow (upsertObjectFile [⟨"c1", "d1", 7⟩] "c1" "d9" (-1)) "c1"
        = some ⟨"c1", "d9", 7⟩
      ∧ (∀ (dg : String) (sz : Int),
          setObjectFileSize (setObjectFileSize [⟨"c1", "d1", 7⟩] dg sz) dg sz
            = setObjectFileSize [⟨"c1", "d1", 7⟩] dg sz)
      ∧ (∀ (dg : String) (sz : Int), ∀ f ∈ setObjectFileSize [⟨"c1", "d1", 7⟩] dg sz,
          f.digest = dg → f.size = sz)) :=
  ⟨⟨by decide, by decide, by decide⟩,
    c10_file_size_preserved_and_idempotent [⟨"c1", "d1", 7⟩] "c1" "d1" "d9" 7
      (by decide) (by decide) (by decide)⟩

/-! ### Claim C6: stat of a non-live path -/

theorem latestRow_mem {rows : List VFRow} {vn : Nat} {p : String} {r : VFRow}
    (h : latestRow rows vn p = some r) : r ∈ rows ∧ r.path = p ∧ r.vnum ≤ vn := by
  induction rows with
  | nil => simp [latestRow] at h
  | cons r0 rs ih =>
    rw [latestRow] at h
    by_cases hc : r0.path = p ∧ r0.vnum ≤ vn
    · rw [if_pos hc] at h
      rcases hrest : latestRow rs vn p with _ | r2
      · rw [hrest, pickLater] at h
        simp only [Option.some.injEq] at h
        exact h ▸ ⟨List.mem_cons_self _ _, hc.1, hc.2⟩
      · rw [hrest, pickLater] at h
        by_cases hlt : r0.vnum < r2.vnum
        · rw [if_pos hlt] at h
          simp only [Option.some.injEq] at h
          rcases ih (h ▸ hrest) with ⟨hm, hp, hv⟩
          exact ⟨List.mem_cons_of_mem _ hm, hp, hv⟩
        · rw [if_neg hlt] at h
          simp only [Option.some.injEq] at h
          exact h ▸ ⟨List.mem_cons_self _ _, hc.1, hc.2⟩
    · rw [if_neg hc] at h
      rcases ih h with ⟨hm, hp, hv⟩
      exact ⟨List.mem_cons_of_mem _ hm, hp, hv⟩

/-- C6: provided the version exists and the name is a valid non-root
path, `StatVersionFile` fails with an error matching `ErrNotFound`
exactly when the path is not a live file in the version's state; in
particular a path whose most recent row at or before `vn` is a
tombstone gets NotFound even if it was live earlier. -/
theorem c6_stat_notfound_iff_not_live (db : ObjDB) (vn : Nat) (name : String)
    (hv : (getVersion db vn).isSome = true) (hvalid : validPath name = true)
    (hname : name ≠ ".") :
    ((∃ e, statVersionFile db vn name = .error e ∧ errorsIs e .notFound = true)
      ↔ stateAt db.vfiles vn name = none)
    ∧ (∀ r, latestRow db.vfiles vn name = some r → r.isDeleted = true →
        ∃ e, statVersionFile db vn name = .error e ∧ errorsIs e .notFound = true) := by
  have hne : name ≠ "" := by
    intro h
    rw [h] at hvalid
    exact absurd hvalid (by decide)
  have hcond : ¬((!validPath name) = true ∨ name = "." ∨ name = "") := by
    simp [hvalid, hname, hne]
  obtain ⟨v, hok⟩ : ∃ v, getVersionE db vn = .ok v := by
    rcases ho : db.versions.find? (fun v => v.vnum = vn) with _ | v
    · rw [getVersion, ho] at hv
      exact absurd hv (by decide)
    · refine ⟨v, ?_⟩
      rw [getVersionE, ho]
  refine ⟨?_, ?_⟩
  · rw [statVersionFile, if_neg hcond, hok, stateAt]
    rcases hlr : latestRow db.vfiles vn name with _ | r
    · exact ⟨fun _ => rfl, fun _ => ⟨_, rfl, rfl⟩⟩
    · obtain ⟨rv, rp, rd, rdel⟩ := r
      cases rdel
      · constructor
        · rintro ⟨e, he, _⟩
          exact Except.noConfusion he
        · intro h
          exact Option.noConfusion h
      · exact ⟨fun _ => rfl, fun _ => ⟨_, rfl, rfl⟩⟩
  · intro r hlr hdel
    obtain ⟨rv, rp, rd, rdel⟩ := r
    cases rdel
    · exact Bool.noConfusion hdel
    · rw [statVersionFile, if_neg hcond, hok, hlr]
      exact ⟨_, rfl, rfl⟩

theorem c6_stat_notfound_iff_not_live_witness :
    ((getVersion ⟨[⟨"c", "d1", 3⟩],
        [⟨1, "s1", 10, "", "", ""⟩, ⟨2, "s2", 20, "", "", ""⟩],
        [⟨1, "readme.txt", "d1", false⟩, ⟨2, "readme.txt", "d1", true⟩]⟩ 2).isSome = true
      ∧ validPath "readme.txt" = true)
    ∧ (((∃ e, statVersionFile ⟨[⟨"c", "d1", 3⟩],
        [⟨1, "s1", 10, "", "", ""⟩, ⟨2, "s2", 20, "", "", ""⟩],
        [⟨1, "readme.txt", "d1", false⟩, ⟨2, "readme.txt", "d1", true⟩]⟩ 2 "readme.txt"
          = .error e ∧ errorsIs e .notFound = true)
      ↔ stateAt [⟨1, "readme.txt", "d1", false⟩, ⟨2, "readme.txt", "d1", true⟩] 2
          "readme.txt" = none)
    ∧ (∀ r, latestRow [⟨1, "readme.txt", "d1", false⟩, ⟨2, "readme.txt", "d1", true⟩] 2
          "readme.txt" = some r → r.isDeleted = true →
        ∃ e, statVersionFile ⟨[⟨"c", "d1", 3⟩],
          [⟨1, "s1", 10, "", "", ""⟩, ⟨2, "s2", 20, "", "", ""⟩],
          [⟨1, "readme.txt", "d1", false⟩, ⟨2, "readme.txt", "d1", true⟩]⟩ 2 "readme.txt"
            = .error e ∧ errorsIs e .notFound = true)) :=
  ⟨⟨by decide, by decide⟩,
    c6_stat_notfound_iff_not_live
      ⟨[⟨"c", "d1", 3⟩],
        [⟨1, "s1", 10, "", "", ""⟩, ⟨2, "s2", 20, "", "", ""⟩],
        [⟨1, "readme.txt", "d1", false⟩, ⟨2, "readme.txt", "d1", true⟩]⟩ 2 "readme.txt"
      (by decide) (by decide) (by decide)⟩

/-! ### Claim C7: empty root listing versus NotFound -/

theorem rvdStep_nil_deleted (dir : String) (f : VFInfo) (h : f.isDeleted = true) :
    rvdStep dir [] f = [] := by
  simp [rvdStep, rvdNew, h]

theorem fold_rvd_all_deleted (dir : String) :
    ∀ files : List VFInfo, (∀ f ∈ files, f.isDeleted = true) →
      files.foldl (rvdStep dir) [] = [] := by
  intro files
  induction files with
  | nil => intro _; rfl
  | cons f fs ih =>
    intro h
    rw [List.foldl_cons, rvdStep_nil_deleted dir f (h f (List.mem_cons_self _ _))]
    exact ih (fun g hg => h g (List.mem_cons_of_mem _ hg))

theorem pathsUpTo_mem {rows : List VFRow} {vn : Nat} {dir p : String} :
    p ∈ pathsUpTo rows vn dir
      ↔ ∃ r ∈ rows, r.vnum ≤ vn ∧ dirFilter dir r.path = true ∧ r.path = p := by
  rw [pathsUpTo, mem_sortBy, List.mem_dedup]
  constructor
  · intro h
    rcases List.mem_map.mp h with ⟨r, hr, hp⟩
    rcases List.mem_filter.mp hr with ⟨hmem, hcond⟩
    simp only [Bool.and_eq_true] at hcond
    obtain ⟨hv, hd⟩ := hcond
    exact ⟨r, hmem, by simpa using hv, hd, hp⟩
  · rintro ⟨r, hmem, hv, hd, hp⟩
    exact List.mem_map.mpr ⟨r, List.mem_filter.mpr ⟨hmem, by simp [hv, hd]⟩, hp⟩

theorem listed_all_deleted (db : ObjDB) (vn : Nat) (dir : String)
    (hyp : ∀ p, dirFilter dir p = true → stateAt db.vfiles vn p = none) :
    ∀ f ∈ listVersionFiles db vn dir, f.isDeleted = true := by
  intro f hf
  rw [listVersionFiles] at hf
  rcases List.mem_filterMap.mp hf with ⟨p, hp, hmk⟩
  rcases Option.map_eq_some'.mp hmk with ⟨r, hlr, hfr⟩
  rcases pathsUpTo_mem.mp hp with ⟨r0, _, _, hd0, hp0⟩
  have hpd : dirFilter dir p = true := hp0 ▸ hd0
  have hst := hyp p hpd
  rw [stateAt, hlr] at hst
  obtain ⟨rv, rp, rd, rdel⟩ := r
  cases rdel
  · exact Option.noConfusion hst
  · rw [← hfr]
    rfl

/-- C7: `ReadVersionDir` of the root directory `"."` of a version with
an empty state returns an empty list and no error, while for any valid
non-root directory under which no live path exists in the version's
state — covering a path that is itself a live file with nothing under
it, and a path that does not exist at all — it fails with an error
matching `ErrNotFound`. -/
theorem c7_empty_root_vs_missing_dir (db : ObjDB) (vn : Nat) (dir : String)
    (hdir : validPath dir = true) :
    ((∀ p, stateAt db.vfiles vn p = none) → readVersionDir db vn "." = .ok [])
    ∧ (dir ≠ "." →
        (∀ p, dirFilter dir p = true → stateAt db.vfiles vn p = none) →
        ∃ e, readVersionDir db vn dir = .error e ∧ errorsIs e .notFound = true) := by
  constructor
  · intro hempty
    have hent : (listVersionFiles db vn ".").foldl (rvdStep ".") [] = [] :=
      fold_rvd_all_deleted "." _ (listed_all_deleted db vn "." (fun p _ => hempty p))
    have hvp : validPath "." = true := by decide
    rw [readVersionDir]
    simp [hent, hvp]
  · intro hne hdead
    have hne' : dir ≠ "" := by
      intro h
      rw [h] at hdir
      exact absurd hdir (by decide)
    have hent : (listVersionFiles db vn dir).foldl (rvdStep dir) [] = [] :=
      fold_rvd_all_deleted dir _ (listed_all_deleted db vn dir hdead)
    rw [readVersionDir]
    simp only [hne', if_false, hdir, Bool.not_true]
    rw [if_neg (by simp)]
    simp only [hent]
    rw [if_pos (by simp [hne])]
    exact ⟨_, rfl, rfl⟩

theorem c7_empty_root_vs_missing_dir_witness :
    (validPath "a_file.txt" = true)
    ∧ (((∀ p, stateAt [⟨1, "a_file.txt", "d", false⟩] 1 p = none) →
        readVersionDir ⟨[⟨"c", "d", 4⟩], [⟨1, "s1", 10, "", "", ""⟩],
          [⟨1, "a_file.txt", "d", false⟩]⟩ 1 "." = .ok [])
      ∧ ("a_file.txt" ≠ "." →
        (∀ p, dirFilter "a_file.txt" p = true →
          stateAt [⟨1, "a_file.txt", "d", false⟩] 1 p = none) →
        ∃ e, readVersionDir ⟨[⟨"c", "d", 4⟩], [⟨1, "s1", 10, "", "", ""⟩],
          [⟨1, "a_file.txt", "d", false⟩]⟩ 1 "a_file.txt" = .error e
          ∧ errorsIs e .notFound = true)) :=
  ⟨by decide,
    c7_empty_root_vs_missing_dir
      ⟨[⟨"c", "d", 4⟩], [⟨1, "s1", 10, "", "", ""⟩], [⟨1, "a_file.txt", "d", false⟩]⟩
      1 "a_file.txt" (by decide)⟩

/-! ### State reconstruction: `getVersionState` lookups equal `stateAt` -/

theorem lookup_eq_none_iff (m : PathMap) (p : String) :
    PathMap.lookup m p = none ↔ ∀ pd ∈ m, pd.1 ≠ p := by
  rw [PathMap.lookup, Option.map_eq_none', List.find?_eq_none]
  simp

theorem lookup_eq_some_iff_mem (m : PathMap) (hn : (m.map (·.1)).Nodup) (p d : String) :
    PathMap.lookup m p = some d ↔ (p, d) ∈ m := by
  constructor
  · intro h
    rw [PathMap.lookup, Option.map_eq_some'] at h
    rcases h with ⟨pd, hfind, hd⟩
    have hp : pd.1 = p := by simpa using List.find?_some hfind
    have : pd = (p, d) := by
      rcases pd with ⟨a, b⟩
      simp only at hp hd
      rw [hp, hd]
    exact this ▸ List.mem_of_find?_eq_some hfind
  · intro hmem
    induction m with
    | nil => simp at hmem
    | cons e rest ih =>
      rw [List.map_cons, List.nodup_cons] at hn
      obtain ⟨hk, hn'⟩ := hn
      by_cases hp : e.1 = p
      · have : e = (p, d) := by
          rcases List.mem_cons.mp hmem with h | h
          · exact h.symm
          · exact absurd (List.mem_map.mpr ⟨(p, d), h, hp.symm⟩) hk
        rw [PathMap.lookup, List.find?_cons_of_pos _ (by simp [hp])]
        rw [this]
        rfl
      · have hmem' : (p, d) ∈ rest := by
          rcases List.mem_cons.mp hmem with h | h
          · exact absurd (congrArg Prod.fst h.symm) hp
          · exact h
        rw [PathMap.lookup, List.find?_cons_of_neg _ (by simp [hp])]
        exact ih hn' hmem'

theorem map_fst_filterMap_sublist {α : Type} (g : String → Option (String × α))
    (hg : ∀ q e, g q = some e → e.1 = q) :
    ∀ l : List String, (((l.filterMap g).map (·.1))).Sublist l := by
  intro l
  induction l with
  | nil => simp
  | cons q t ih =>
    rcases hgq : g q with _ | e
    · rw [List.filterMap_cons_none hgq]
      exact ih.cons q
    · rw [List.filterMap_cons_some hgq, List.map_cons, hg q e hgq]
      exact ih.cons₂ q

theorem pathsUpTo_nodup (rows : List VFRow) (vn : Nat) (dir : String) :
    (pathsUpTo rows vn dir).Nodup :=
  nodup_sortBy _ _ (List.nodup_dedup _)

theorem dirFilter_root (p : String) : dirFilter "." p = true := by
  rw [dirFilter, if_pos (Or.inr rfl)]

/-- `getVersionState` as a single `filterMap` over the grouped paths. -/
theorem getVersionState_eq_filterMap (db : ObjDB) (vn : Nat) :
    getVersionState db vn
      = (pathsUpTo db.vfiles vn ".").filterMap (fun q =>
          ((latestRow db.vfiles vn q).map (mkVFInfo db)).bind
            (fun f => if f.isDeleted then none else some (f.path, f.digest))) := by
  rw [getVersionState, listVersionFiles, List.filterMap_filterMap]

theorem mkVFInfo_path (db : ObjDB) (r : VFRow) : (mkVFInfo db r).path = r.path := rfl

theorem mkVFInfo_digest (db : ObjDB) (r : VFRow) : (mkVFInfo db r).digest = r.digest := rfl

theorem mkVFInfo_isDeleted (db : ObjDB) (r : VFRow) :
    (mkVFInfo db r).isDeleted = r.isDeleted := rfl

theorem mkVFInfo_modVnum (db : ObjDB) (r : VFRow) : (mkVFInfo db r).modVnum = r.vnum := rfl

theorem mkVFInfo_modTime (db : ObjDB) (r : VFRow) :
    (mkVFInfo db r).modTime = ((getVersion db r.vnum).map (·.createdAt)).getD 0 := rfl

theorem getVersionState_keys_nodup (db : ObjDB) (vn : Nat) :
    ((getVersionState db vn).map (·.1)).Nodup := by
  rw [getVersionState_eq_filterMap]
  refine List.Nodup.sublist (map_fst_filterMap_sublist _ ?_ _) (pathsUpTo_nodup _ _ _)
  intro q e hq
  rcases Option.bind_eq_some.mp hq with ⟨f, hf, hproj⟩
  rcases Option.map_eq_some'.mp hf with ⟨r, hlr, hfr⟩
  by_cases hdel : f.isDeleted = true
  · rw [if_pos hdel] at hproj
    exact Option.noConfusion hproj
  · rw [if_neg hdel] at hproj
    have he : (f.path, f.digest) = e := Option.some.inj hproj
    have h1 : e.1 = f.path := by rw [← he]
    rw [h1, ← hfr, mkVFInfo_path]
    exact (latestRow_mem hlr).2.1

theorem mem_getVersionState {db : ObjDB} {vn : Nat} {p d : String} :
    (p, d) ∈ getVersionState db vn ↔ stateAt db.vfiles vn p = some d := by
  rw [getVersionState_eq_filterMap]
  constructor
  · intro h
    rcases List.mem_filterMap.mp h with ⟨q, _, hq⟩
    rcases Option.bind_eq_some.mp hq with ⟨f, hf, hproj⟩
    rcases Option.map_eq_some'.mp hf with ⟨r, hlr, hfr⟩
    by_cases hdel : f.isDeleted = true
    · rw [if_pos hdel] at hproj
      exact Option.noConfusion hproj
    · rw [if_neg hdel] at hproj
      have he := Option.some.inj hproj
      have hp : f.path = p := congrArg Prod.fst he
      have hd : f.digest = d := congrArg Prod.snd he
      have hrp : r.path = q := (latestRow_mem hlr).2.1
      have hq2 : q = p := by rw [← hrp, ← mkVFInfo_path db r, hfr, hp]
      subst hq2
      rw [stateAt, hlr]
      show (if r.isDeleted = true then none else some r.digest) = some d
      have hrdel : ¬(r.isDeleted = true) := by
        rw [← mkVFInfo_isDeleted db r, hfr]
        exact hdel
      rw [if_neg hrdel, ← mkVFInfo_digest db r, hfr, hd]
  · intro hst
    rw [stateAt] at hst
    rcases hlr : latestRow db.vfiles vn p with _ | r
    · rw [hlr] at hst
      exact Option.noConfusion hst
    · rw [hlr] at hst
      rcases latestRow_mem hlr with ⟨hm, hrp, hrv⟩
      have hst' : (if r.isDeleted = true then none else some r.digest) = some d := hst
      by_cases hdel : r.isDeleted = true
      · rw [if_pos hdel] at hst'
        exact Option.noConfusion hst'
      · rw [if_neg hdel] at hst'
        have hd : r.digest = d := Option.some.inj hst'
        have hpaths : p ∈ pathsUpTo db.vfiles vn "." :=
          pathsUpTo_mem.mpr ⟨r, hm, hrv, dirFilter_root _, hrp⟩
        refine List.mem_filterMap.mpr ⟨p, hpaths, ?_⟩
        rw [hlr, Option.map_some', Option.some_bind, mkVFInfo_isDeleted, if_neg hdel,
          mkVFInfo_path, mkVFInfo_digest, hrp, hd]

/-- Reconstructed-state lookups coincide with `stateAt`. -/
theorem lookup_getVersionState (db : ObjDB) (vn : Nat) (p : String) :
    PathMap.lookup (getVersionState db vn) p = stateAt db.vfiles vn p := by
  rcases hst : stateAt db.vfiles vn p with _ | d
  · rw [lookup_eq_none_iff]
    rintro ⟨a, b⟩ hm rfl
    have := mem_getVersionState.mp hm
    rw [hst] at this
    exact Option.noConfusion this
  · exact (lookup_eq_some_iff_mem _ (getVersionState_keys_nodup db vn) p d).mpr
      (mem_getVersionState.mpr hst)

/-! ### Claims C3 and C4: version diff -/

/-- The state referenced by the `fromVN` argument of a diff: version 0
denotes the empty state. -/
def sFrom (db : ObjDB) (fromVN : Nat) (p : String) : Option String :=
  if fromVN = 0 then none else stateAt db.vfiles fromVN p

/-- The change list built by the main branch of `GetVersionChanges`
(identical, up to zeta reduction, to the tail of `getVersionChanges`). -/
def changesList (db : ObjDB) (fromVN toVN : Nat) : List FileChange :=
  sortBy (fun a b => strLeB a.Path b.Path)
    (((getVersionState db toVN).filterMap (fun pd =>
        match PathMap.lookup (if fromVN = 0 then [] else getVersionState db fromVN) pd.1 with
        | none => some ⟨pd.1, .FileAdded⟩
        | some d0 => if d0 ≠ pd.2 then some ⟨pd.1, .FileModified⟩ else none))
      ++ ((if fromVN = 0 then [] else getVersionState db fromVN).filterMap (fun pd =>
        if (PathMap.lookup (getVersionState db toVN) pd.1).isNone then
          some ⟨pd.1, .FileDeleted⟩
        else none)))

theorem addsMods_mem (fromPaths toPaths : PathMap) (hTn : (toPaths.map (·.1)).Nodup)
    (p : String) (t : ModType) :
    ((⟨p, t⟩ : FileChange) ∈ toPaths.filterMap (fun pd =>
        match PathMap.lookup fromPaths pd.1 with
        | none => some ⟨pd.1, .FileAdded⟩
        | some d0 => if d0 ≠ pd.2 then some ⟨pd.1, .FileModified⟩ else none))
    ↔ (match t with
       | .FileAdded => (PathMap.lookup toPaths p).isSome = true
          ∧ PathMap.lookup fromPaths p = none
       | .FileModified => ∃ d d0, PathMap.lookup toPaths p = some d
          ∧ PathMap.lookup fromPaths p = some d0 ∧ d0 ≠ d
       | .FileDeleted => False) := by
  constructor
  · intro h
    rcases List.mem_filterMap.mp h with ⟨pd, hmem, hf⟩
    have hlookT : PathMap.lookup toPaths pd.1 = some pd.2 :=
      (lookup_eq_some_iff_mem _ hTn _ _).mpr hmem
    rcases hlook : PathMap.lookup fromPaths pd.1 with _ | d0
    · rw [hlook] at hf
      have h1 : pd.1 = p := congrArg FileChange.Path (Option.some.inj hf)
      have h2 : ModType.FileAdded = t := congrArg FileChange.modType (Option.some.inj hf)
      rw [← h2]
      exact ⟨by rw [← h1, hlookT]; rfl, by rw [← h1, hlook]⟩
    · rw [hlook] at hf
      have hf' : (if d0 ≠ pd.2 then some (⟨pd.1, .FileModified⟩ : FileChange) else none)
          = some (⟨p, t⟩ : FileChange) := hf
      by_cases hne : d0 ≠ pd.2
      · rw [if_pos hne] at hf'
        have h1 : pd.1 = p := congrArg FileChange.Path (Option.some.inj hf')
        have h2 : ModType.FileModified = t := congrArg FileChange.modType (Option.some.inj hf')
        rw [← h2]
        exact ⟨pd.2, d0, by rw [← h1, hlookT], by rw [← h1, hlook], hne⟩
      · rw [if_neg hne] at hf'
        exact Option.noConfusion hf'
  · intro h
    cases t with
    | FileAdded =>
      obtain ⟨hsome, hnone⟩ := h
      obtain ⟨d, hd⟩ := Option.isSome_iff_exists.mp hsome
      refine List.mem_filterMap.mpr ⟨(p, d), (lookup_eq_some_iff_mem _ hTn _ _).mp hd, ?_⟩
      rw [show ((p, d) : String × String).1 = p from rfl, hnone]
    | FileModified =>
      obtain ⟨d, d0, hT, hF, hne⟩ := h
      refine List.mem_filterMap.mpr ⟨(p, d), (lookup_eq_some_iff_mem _ hTn _ _).mp hT, ?_⟩
      rw [show ((p, d) : String × String).1 = p from rfl, hF]
      show (if d0 ≠ d then some (⟨p, .FileModified⟩ : FileChange) else none)
        = some (⟨p, .FileModified⟩ : FileChange)
      rw [if_pos hne]
    | FileDeleted => exact absurd h not_false

theorem dels_mem (fromPaths toPaths : PathMap) (hFn : (fromPaths.map (·.1)).Nodup)
    (p : String) (t : ModType) :
    ((⟨p, t⟩ : FileChange) ∈ fromPaths.filterMap (fun pd =>
        if (PathMap.lookup toPaths pd.1).isNone then some ⟨pd.1, .FileDeleted⟩ else none))
    ↔ t = .FileDeleted ∧ (PathMap.lookup fromPaths p).isSome = true
        ∧ PathMap.lookup toPaths p = none := by
  constructor
  · intro h
    rcases List.mem_filterMap.mp h with ⟨pd, hmem, hf⟩
    by_cases hn : (PathMap.lookup toPaths pd.1).isNone = true
    · rw [if_pos hn] at hf
      have h1 : pd.1 = p := congrArg FileChange.Path (Option.some.inj hf)
      have h2 : ModType.FileDeleted = t := congrArg FileChange.modType (Option.some.inj hf)
      refine ⟨h2.symm, ?_, ?_⟩
      · rw [← h1, (lookup_eq_some_iff_mem _ hFn _ _).mpr hmem]
        rfl
      · rw [← h1]
        exact Option.isNone_iff_eq_none.mp hn
    · rw [if_neg hn] at hf
      exact Option.noConfusion hf
  · rintro ⟨rfl, hsome, hnone⟩
    obtain ⟨d0, hd0⟩ := Option.isSome_iff_exists.mp hsome
    refine List.mem_filterMap.mpr ⟨(p, d0), (lookup_eq_some_iff_mem _ hFn _ _).mp hd0, ?_⟩
    rw [show ((p, d0) : String × String).1 = p from rfl, hnone]
    rfl

theorem getVersionChanges_main (db : ObjDB) (fromVN toVN : Nat)
    (h1 : ¬ toVN < 1) (hto : (getVersion db toVN).isSome = true)
    (hfrom : fromVN = 0 ∨ (getVersion db fromVN).isSome = true)
    (hne : fromVN ≠ toVN) :
    getVersionChanges db fromVN toVN = .ok ⟨fromVN, toVN, changesList db fromVN toVN⟩ := by
  obtain ⟨vt, hvt⟩ := Option.isSome_iff_exists.mp hto
  have hc2 : ¬(0 < fromVN ∧ (getVersion db fromVN).isNone = true) := by
    rcases hfrom with h0 | hsome
    · rw [h0]
      simp
    · obtain ⟨vf, hvf⟩ := Option.isSome_iff_exists.mp hsome
      rw [hvf]
      simp
  rw [getVersionChanges, if_neg h1, hvt, if_neg (by simp), if_neg hc2, if_neg hne]
  rfl

theorem getVersionChanges_spec (db : ObjDB) (fromVN toVN : Nat) (h1 : 1 ≤ toVN)
    (hto : (getVersion db toVN).isSome = true)
    (hfrom : fromVN = 0 ∨ (getVersion db fromVN).isSome = true) :
    ∃ cs, getVersionChanges db fromVN toVN = .ok ⟨fromVN, toVN, cs⟩
    ∧ (∀ p, ((⟨p, .FileAdded⟩ : FileChange) ∈ cs
        ↔ fromVN ≠ toVN ∧ (stateAt db.vfiles toVN p).isSome = true
          ∧ sFrom db fromVN p = none))
    ∧ (∀ p, ((⟨p, .FileModified⟩ : FileChange) ∈ cs
        ↔ fromVN ≠ toVN ∧ ∃ d d0, stateAt db.vfiles toVN p = some d
            ∧ sFrom db fromVN p = some d0 ∧ d0 ≠ d))
    ∧ (∀ p, ((⟨p, .FileDeleted⟩ : FileChange) ∈ cs
        ↔ fromVN ≠ toVN ∧ (sFrom db fromVN p).isSome = true
          ∧ stateAt db.vfiles toVN p = none))
    ∧ cs.Pairwise (fun a b => strLeB a.Path b.Path = true)
    ∧ (fromVN = toVN → cs = []) := by
  by_cases heq : fromVN = toVN
  · refine ⟨[], ?_, ?_, ?_, ?_, List.Pairwise.nil, fun _ => rfl⟩
    · obtain ⟨vt, hvt⟩ := Option.isSome_iff_exists.mp hto
      have hc2 : ¬(0 < fromVN ∧ (getVersion db fromVN).isNone = true) := by
        rw [heq, hvt]
        simp
      rw [getVersionChanges, if_neg (by omega), hvt, if_neg (by simp), if_neg hc2,
        if_pos heq]
    · intro p
      simp [heq]
    · intro p
      simp [heq]
    · intro p
      simp [heq]
  · have hTn := getVersionState_keys_nodup db toVN
    have hFn : ((if fromVN = 0 then ([] : PathMap) else getVersionState db fromVN).map
        (·.1)).Nodup := by
      by_cases h0 : fromVN = 0
      · rw [if_pos h0]
        exact List.Pairwise.nil
      · rw [if_neg h0]
        exact getVersionState_keys_nodup db fromVN
    have hlookF : ∀ p, PathMap.lookup
        (if fromVN = 0 then ([] : PathMap) else getVersionState db fromVN) p
          = sFrom db fromVN p := by
      intro p
      by_cases h0 : fromVN = 0
      · rw [if_pos h0, sFrom, if_pos h0]
        rfl
      · rw [if_neg h0, sFrom, if_neg h0, lookup_getVersionState]
    refine ⟨changesList db fromVN toVN,
      getVersionChanges_main db fromVN toVN (by omega) hto hfrom heq, ?_, ?_, ?_, ?_,
      fun h => absurd h heq⟩
    · intro p
      rw [changesList, mem_sortBy, List.mem_append,
        addsMods_mem _ _ hTn p .FileAdded, dels_mem _ _ hFn p .FileAdded,
        hlookF, lookup_getVersionState]
      simp [heq]
    · intro p
      rw [changesList, mem_sortBy, List.mem_append,
        addsMods_mem _ _ hTn p .FileModified, dels_mem _ _ hFn p .FileModified,
        hlookF]
      simp only [lookup_getVersionState]
      simp [heq]
    · intro p
      rw [changesList, mem_sortBy, List.mem_append,
        addsMods_mem _ _ hTn p .FileDeleted, dels_mem _ _ hFn p .FileDeleted,
        hlookF, lookup_getVersionState]
      simp [heq]
    · rw [changesList]
      exact pairwise_sortBy (fun a b : FileChange => strLeB a.Path b.Path)
        (fun a b => strLeB_total a.Path b.Path)
        (fun a b c => strLeB_trans a.Path b.Path c.Path) _

/-- C3: for an indexed object, an existing `toVN ≥ 1` and `fromVN`
either `0` or existing, `GetVersionChanges` succeeds with the given
bounds and a change list holding exactly: Added for each path live in
`toVN` and absent from `fromVN`'s state, Modified for each path live in
both with differing digests, Deleted for each path live in `fromVN` and
absent from `toVN` (equal digests produce nothing); the list is sorted
by path ascending; `fromVN = toVN` yields the empty list; `fromVN = 0`
yields only Added entries. -/
theorem c3_get_version_changes_exact (db : ObjDB) (fromVN toVN : Nat) (h1 : 1 ≤ toVN)
    (hto : (getVersion db toVN).isSome = true)
    (hfrom : fromVN = 0 ∨ (getVersion db fromVN).isSome = true) :
    ∃ cs, getVersionChanges db fromVN toVN = .ok ⟨fromVN, toVN, cs⟩
    ∧ (∀ p, ((⟨p, .FileAdded⟩ : FileChange) ∈ cs
        ↔ fromVN ≠ toVN ∧ (stateAt db.vfiles toVN p).isSome = true
          ∧ sFrom db fromVN p = none))
    ∧ (∀ p, ((⟨p, .FileModified⟩ : FileChange) ∈ cs
        ↔ fromVN ≠ toVN ∧ ∃ d d0, stateAt db.vfiles toVN p = some d
            ∧ sFrom db fromVN p = some d0 ∧ d0 ≠ d))
    ∧ (∀ p, ((⟨p, .FileDeleted⟩ : FileChange) ∈ cs
        ↔ fromVN ≠ toVN ∧ (sFrom db fromVN p).isSome = true
          ∧ stateAt db.vfiles toVN p = none))
    ∧ cs.Pairwise (fun a b => strLeB a.Path b.Path = true)
    ∧ (fromVN = toVN → cs = [])
    ∧ (fromVN = 0 → ∀ c ∈ cs, c.modType = .FileAdded) := by
  obtain ⟨cs, hret, hA, hM, hD, hsort, hempty⟩ :=
    getVersionChanges_spec db fromVN toVN h1 hto hfrom
  refine ⟨cs, hret, hA, hM, hD, hsort, hempty, ?_⟩
  intro h0 c hc
  rcases hmt : c.modType with _ | _ | _
  · rfl
  · have hc' : (⟨c.Path, .FileModified⟩ : FileChange) ∈ cs := by
      rw [show (⟨c.Path, .FileModified⟩ : FileChange) = c from by rw [← hmt]]
      exact hc
    obtain ⟨_, d, d0, _, hF, _⟩ := (hM c.Path).mp hc'
    rw [sFrom, if_pos h0] at hF
    exact Option.noConfusion hF
  · have hc' : (⟨c.Path, .FileDeleted⟩ : FileChange) ∈ cs := by
      rw [show (⟨c.Path, .FileDeleted⟩ : FileChange) = c from by rw [← hmt]]
      exact hc
    obtain ⟨_, hsome, _⟩ := (hD c.Path).mp hc'
    rw [sFrom, if_pos h0] at hsome
    exact absurd hsome (by decide)

/-- The indexed rows used by the diff witnesses: v1 = {a.txt:d1,
b.txt:d2}, v2 = {a.txt:d1, b.txt:d3, c.txt:d4} stored as deltas. -/
def diffDB : ObjDB :=
  ⟨[], [⟨1, "s1", 10, "", "", ""⟩, ⟨2, "s2", 20, "", "", ""⟩],
    [⟨1, "a.txt", "d1", false⟩, ⟨1, "b.txt", "d2", false⟩,
     ⟨2, "b.txt", "d3", false⟩, ⟨2, "c.txt", "d4", false⟩]⟩

theorem c3_get_version_changes_exact_witness :
    (1 ≤ 2 ∧ (getVersion diffDB 2).isSome = true
      ∧ ((1 : Nat) = 0 ∨ (getVersion diffDB 1).isSome = true))
    ∧ (∃ cs, getVersionChanges diffDB 1 2 = .ok ⟨1, 2, cs⟩
      ∧ (∀ p, ((⟨p, .FileAdded⟩ : FileChange) ∈ cs
          ↔ (1 : Nat) ≠ 2 ∧ (stateAt diffDB.vfiles 2 p).isSome = true
            ∧ sFrom diffDB 1 p = none))
      ∧ (∀ p, ((⟨p, .FileModified⟩ : FileChange) ∈ cs
          ↔ (1 : Nat) ≠ 2 ∧ ∃ d d0, stateAt diffDB.vfiles 2 p = some d
              ∧ sFrom diffDB 1 p = some d0 ∧ d0 ≠ d))
      ∧ (∀ p, ((⟨p, .FileDeleted⟩ : FileChange) ∈ cs
          ↔ (1 : Nat) ≠ 2 ∧ (sFrom diffDB 1 p).isSome = true
            ∧ stateAt diffDB.vfiles 2 p = none))
      ∧ cs.Pairwise (fun a b => strLeB a.Path b.Path = true)
      ∧ ((1 : Nat) = 2 → cs = [])
      ∧ ((1 : Nat) = 0 → ∀ c ∈ cs, c.modType = .FileAdded)) :=
  ⟨⟨by decide, by decide, Or.inr (by decide)⟩,
    c3_get_version_changes_exact diffDB 1 2 (by decide) (by decide) (Or.inr (by decide))⟩

/-- C4: for two existing versions `a, b ≥ 1`, the change sets of
`GetVersionChanges(a, b)` and `GetVersionChanges(b, a)` are related by
swapping: a path is Added in one iff Deleted in the other, and the
Modified paths coincide. -/
theorem c4_changes_reverse_swap (db : ObjDB) (a b : Nat)
    (ha1 : 1 ≤ a) (hb1 : 1 ≤ b)
    (hae : (getVersion db a).isSome = true) (hbe : (getVersion db b).isSome = true) :
    ∃ csab csba,
      getVersionChanges db a b = .ok ⟨a, b, csab⟩
      ∧ getVersionChanges db b a = .ok ⟨b, a, csba⟩
      ∧ (∀ p, ((⟨p, .FileAdded⟩ : FileChange) ∈ csab
          ↔ (⟨p, .FileDeleted⟩ : FileChange) ∈ csba))
      ∧ (∀ p, ((⟨p, .FileDeleted⟩ : FileChange) ∈ csab
          ↔ (⟨p, .FileAdded⟩ : FileChange) ∈ csba))
      ∧ (∀ p, ((⟨p, .FileModified⟩ : FileChange) ∈ csab
          ↔ (⟨p, .FileModified⟩ : FileChange) ∈ csba)) := by
  obtain ⟨csab, hret1, hA1, hM1, hD1, _, _⟩ :=
    getVersionChanges_spec db a b hb1 hbe (Or.inr hae)
  obtain ⟨csba, hret2, hA2, hM2, hD2, _, _⟩ :=
    getVersionChanges_spec db b a ha1 hae (Or.inr hbe)
  have hsa : ∀ p, sFrom db a p = stateAt db.vfiles a p := by
    intro p
    rw [sFrom, if_neg (by omega)]
  have hsb : ∀ p, sFrom db b p = stateAt db.vfiles b p := by
    intro p
    rw [sFrom, if_neg (by omega)]
  refine ⟨csab, csba, hret1, hret2, ?_, ?_, ?_⟩
  · intro p
    rw [hA1 p, hD2 p, hsa, hsb]
    constructor
    · rintro ⟨hne, hx, hy⟩
      exact ⟨fun h => hne h.symm, hx, hy⟩
    · rintro ⟨hne, hx, hy⟩
      exact ⟨fun h => hne h.symm, hx, hy⟩
  · intro p
    rw [hD1 p, hA2 p, hsa, hsb]
    constructor
    · rintro ⟨hne, hx, hy⟩
      exact ⟨fun h => hne h.symm, hx, hy⟩
    · rintro ⟨hne, hx, hy⟩
      exact ⟨fun h => hne h.symm, hx, hy⟩
  · intro p
    rw [hM1 p, hM2 p, hsa, hsb]
    constructor
    · rintro ⟨hne, d, d0, hT, hF, hd⟩
      exact ⟨fun h => hne h.symm, d0, d, hF, hT, fun h => hd h.symm⟩
    · rintro ⟨hne, d, d0, hT, hF, hd⟩
      exact ⟨fun h => hne h.symm, d0, d, hF, hT, fun h => hd h.symm⟩

theorem c4_changes_reverse_swap_witness :
    (1 ≤ 1 ∧ 1 ≤ 2 ∧ (getVersion diffDB 1).isSome = true
      ∧ (getVersion diffDB 2).isSome = true)
    ∧ (∃ csab csba,
      getVersionChanges diffDB 1 2 = .ok ⟨1, 2, csab⟩
      ∧ getVersionChanges diffDB 2 1 = .ok ⟨2, 1, csba⟩
      ∧ (∀ p, ((⟨p, .FileAdded⟩ : FileChange) ∈ csab
          ↔ (⟨p, .FileDeleted⟩ : FileChange) ∈ csba))
      ∧ (∀ p, ((⟨p, .FileDeleted⟩ : FileChange) ∈ csab
          ↔ (⟨p, .FileAdded⟩ : FileChange) ∈ csba))
      ∧ (∀ p, ((⟨p, .FileModified⟩ : FileChange) ∈ csab
          ↔ (⟨p, .FileModified⟩ : FileChange) ∈ csba))) :=
  ⟨⟨by decide, by decide, by decide, by decide⟩,
    c4_changes_reverse_swap diffDB 1 2 (by decide) (by decide) (by decide) (by decide)⟩

/-! ### Claim C1: the incremental version-file storage policy

The invariant is proved for a fresh index (`emptyDB`); a counterexample
below shows the claim fails on re-index when an earlier version's state
is rewritten while a later version's state digest is unchanged. -/

/-- The previous-state lookup seen by `setObjectVersionState`:
`none` when there is no previous version. -/
def prevLook (prevOpt : Option PathMap) (p : String) : Option String :=
  prevOpt.bind (fun prev => PathMap.lookup prev p)

/-- The input state of version `k` of a `SetObject` call, as a path →
digest map; `stv versions 0` is the empty state. -/
def stv (versions : List Version) : Nat → PathMap
  | 0 => []
  | k + 1 => (versions[k]?.map (fun v => v.State.toPathMap)).getD []

theorem latestRow_none_of_none (vn : Nat) (p : String) (rows : List VFRow)
    (h : ∀ r ∈ rows, ¬(r.path = p ∧ r.vnum ≤ vn)) : latestRow rows vn p = none := by
  induction rows with
  | nil => rfl
  | cons r rs ih =>
    rw [latestRow, if_neg (h r (List.mem_cons_self _ _))]
    exact ih (fun r2 h2 => h r2 (List.mem_cons_of_mem _ h2))

/-- Appending rows above the queried version does not change the result. -/
theorem latestRow_append_high (rows extra : List VFRow) (vn : Nat) (p : String)
    (h : ∀ r ∈ extra, ¬(r.vnum ≤ vn)) :
    latestRow (rows ++ extra) vn p = latestRow rows vn p := by
  induction rows with
  | nil =>
    rw [List.nil_append]
    exact latestRow_none_of_none vn p extra (fun r hr hc => h r hr hc.2)
  | cons r rs ih =>
    rw [List.cons_append, latestRow, latestRow, ih]

theorem pickLater_none (r : VFRow) : pickLater r none = some r := rfl

theorem pickLater_some (r r2 : VFRow) :
    pickLater r (some r2) = if r.vnum < r2.vnum then some r2 else some r := rfl

theorem option_some_or {α : Type} (a : α) (b : Option α) : (some a).or b = some a := rfl

theorem option_none_or {α : Type} (b : Option α) : (none : Option α).or b = b := rfl

/-- On rows all at version `vn`, the latest row is the first matching row. -/
theorem latestRow_all_at (block : List VFRow) (vn : Nat) (p : String)
    (hb : ∀ r ∈ block, r.vnum = vn) :
    latestRow block vn p = block.find? (fun r => r.path = p) := by
  induction block with
  | nil => rfl
  | cons b bs ih =>
    have hbv : b.vnum = vn := hb b (List.mem_cons_self _ _)
    have ih' := ih (fun r hr => hb r (List.mem_cons_of_mem _ hr))
    by_cases hp : b.path = p
    · rw [latestRow, if_pos ⟨hp, le_of_eq hbv⟩, List.find?_cons_of_pos _ (by simp [hp]), ih']
      rcases hfind : bs.find? (fun r => r.path = p) with _ | r2
      · rw [hfind, pickLater_none]
      · have hr2 : r2 ∈ bs := List.mem_of_find?_eq_some hfind
        have : r2.vnum = vn := hb r2 (List.mem_cons_of_mem _ hr2)
        rw [hfind, pickLater_some, if_neg (by omega)]
    · rw [latestRow, if_neg (by simp [hp]), List.find?_cons_of_neg _ (by simp [hp]), ih']

/-- Appending a block of rows all at version `vn` on top of rows all
strictly below `vn`: the block's first matching row wins, otherwise the
old result stands. -/
theorem latestRow_append_block (rows block : List VFRow) (vn : Nat) (p : String)
    (hrows : ∀ r ∈ rows, r.vnum < vn) (hblock : ∀ r ∈ block, r.vnum = vn) :
    latestRow (rows ++ block) vn p
      = (block.find? (fun r => r.path = p)).or (latestRow rows vn p) := by
  induction rows with
  | nil =>
    rw [List.nil_append, latestRow_all_at block vn p hblock]
    rcases hfind : block.find? (fun r => r.path = p) with _ | r
    · rw [hfind, option_none_or]
      exact (latestRow_none_of_none vn p [] (fun r hr => by simp at hr)).symm
    · rw [hfind, option_some_or]
  | cons r0 rs ih =>
    have h0 : r0.vnum < vn := hrows r0 (List.mem_cons_self _ _)
    have ih' := ih (fun r hr => hrows r (List.mem_cons_of_mem _ hr))
    rw [List.cons_append, latestRow, ih', latestRow]
    by_cases hc : r0.path = p ∧ r0.vnum ≤ vn
    · rw [if_pos hc, if_pos hc]
      rcases hfind : block.find? (fun r => r.path = p) with _ | rb
      · rw [hfind, option_none_or, option_none_or]
      · rw [hfind, option_some_or, option_some_or]
        have hrb : rb.vnum = vn := hblock rb (List.mem_of_find?_eq_some hfind)
        rw [pickLater_some, if_pos (by omega)]
    · rw [if_neg hc, if_neg hc]

/-- Raising the version bound beyond every row's version is a no-op. -/
theorem latestRow_le_irrel (rows : List VFRow) (vn vn' : Nat) (p : String)
    (h : ∀ r ∈ rows, r.vnum ≤ vn) (hle : vn ≤ vn') :
    latestRow rows vn' p = latestRow rows vn p := by
  induction rows with
  | nil => rfl
  | cons r rs ih =>
    have hv : r.vnum ≤ vn := h r (List.mem_cons_self _ _)
    have ih' := ih (fun r2 h2 => h r2 (List.mem_cons_of_mem _ h2))
    by_cases hp : r.path = p
    · rw [latestRow, if_pos ⟨hp, le_trans hv hle⟩, latestRow, if_pos ⟨hp, hv⟩, ih']
    · rw [latestRow, if_neg (by simp [hp]), latestRow, if_neg (by simp [hp]), ih']

theorem stateAt_append_high (rows extra : List VFRow) (vn : Nat) (p : String)
    (h : ∀ r ∈ extra, ¬(r.vnum ≤ vn)) :
    stateAt (rows ++ extra) vn p = stateAt rows vn p := by
  rw [stateAt, stateAt, latestRow_append_high rows extra vn p h]

theorem insertsRows_shape {vn : Nat} {prevOpt : Option PathMap} {statePM : PathMap}
    {r : VFRow} (h : r ∈ insertsRows vn prevOpt statePM) :
    r.vnum = vn ∧ r.isDeleted = false := by
  rcases List.mem_filterMap.mp h with ⟨pd, _, hf⟩
  rcases prevOpt with _ | prev
  · cases Option.some.inj hf
    exact ⟨rfl, rfl⟩
  · have hf2 : (match PathMap.lookup prev pd.1 with
        | some d0 => if d0 = pd.2 then none else some (⟨vn, pd.1, pd.2, false⟩ : VFRow)
        | none => some ⟨vn, pd.1, pd.2, false⟩) = some r := hf
    rcases hlook : PathMap.lookup prev pd.1 with _ | d0
    · rw [hlook] at hf2
      cases Option.some.inj hf2
      exact ⟨rfl, rfl⟩
    · rw [hlook] at hf2
      have hf3 : (if d0 = pd.2 then none
          else some (⟨vn, pd.1, pd.2, false⟩ : VFRow)) = some r := hf2
      by_cases he : d0 = pd.2
      · rw [if_pos he] at hf3
        exact Option.noConfusion hf3
      · rw [if_neg he] at hf3
        cases Option.some.inj hf3
        exact ⟨rfl, rfl⟩

theorem tombRows_shape {vn : Nat} {prevOpt : Option PathMap} {statePM : PathMap}
    {r : VFRow} (h : r ∈ tombRows vn prevOpt statePM) :
    r.vnum = vn ∧ r.isDeleted = true := by
  rcases List.mem_filterMap.mp h with ⟨pd, _, hf⟩
  by_cases hn : (PathMap.lookup statePM pd.1).isNone = true
  · rw [if_pos hn] at hf
    cases Option.some.inj hf
    exact ⟨rfl, rfl⟩
  · rw [if_neg hn] at hf
    exact Option.noConfusion hf

theorem mem_insertsRows {vn : Nat} {prevOpt : Option PathMap} {statePM : PathMap}
    {r : VFRow} (hn : (statePM.map (·.1)).Nodup) :
    r ∈ insertsRows vn prevOpt statePM
      ↔ ∃ p d, r = ⟨vn, p, d, false⟩ ∧ PathMap.lookup statePM p = some d
          ∧ prevLook prevOpt p ≠ some d := by
  constructor
  · intro h
    rcases List.mem_filterMap.mp h with ⟨pd, hmem, hf⟩
    have hlookS : PathMap.lookup statePM pd.1 = some pd.2 :=
      (lookup_eq_some_iff_mem _ hn _ _).mpr hmem
    rcases prevOpt with _ | prev
    · cases Option.some.inj hf
      exact ⟨pd.1, pd.2, rfl, hlookS, by rw [prevLook]; simp⟩
    · have hf2 : (match PathMap.lookup prev pd.1 with
          | some d0 => if d0 = pd.2 then none else some (⟨vn, pd.1, pd.2, false⟩ : VFRow)
          | none => some ⟨vn, pd.1, pd.2, false⟩) = some r := hf
      rcases hlook : PathMap.lookup prev pd.1 with _ | d0
      · rw [hlook] at hf2
        cases Option.some.inj hf2
        exact ⟨pd.1, pd.2, rfl, hlookS, by rw [prevLook, Option.some_bind, hlook]; simp⟩
      · rw [hlook] at hf2
        have hf3 : (if d0 = pd.2 then none
            else some (⟨vn, pd.1, pd.2, false⟩ : VFRow)) = some r := hf2
        by_cases he : d0 = pd.2
        · rw [if_pos he] at hf3
          exact Option.noConfusion hf3
        · rw [if_neg he] at hf3
          cases Option.some.inj hf3
          refine ⟨pd.1, pd.2, rfl, hlookS, ?_⟩
          rw [prevLook, Option.some_bind, hlook]
          intro hcon
          exact he (Option.some.inj hcon)
  · rintro ⟨p, d, rfl, hlookS, hprev⟩
    have hmem : (p, d) ∈ statePM := (lookup_eq_some_iff_mem _ hn _ _).mp hlookS
    refine List.mem_filterMap.mpr ⟨(p, d), hmem, ?_⟩
    rcases prevOpt with _ | prev
    · rfl
    · rw [prevLook, Option.some_bind] at hprev
      show (match PathMap.lookup prev p with
        | some d0 => if d0 = d then none else some (⟨vn, p, d, false⟩ : VFRow)
        | none => some ⟨vn, p, d, false⟩) = some ⟨vn, p, d, false⟩
      rcases hlook : PathMap.lookup prev p with _ | d0
      · rfl
      · have hne : d0 ≠ d := fun he => hprev (by rw [hlook, he])
        show (if d0 = d then none else some (⟨vn, p, d, false⟩ : VFRow)) = _
        rw [if_neg hne]

theorem mem_tombRows {vn : Nat} {prevOpt : Option PathMap} {statePM : PathMap}
    {r : VFRow} (hp : ((prevOpt.getD []).map (·.1)).Nodup) :
    r ∈ tombRows vn prevOpt statePM
      ↔ ∃ p d, r = ⟨vn, p, d, true⟩ ∧ prevLook prevOpt p = some d
          ∧ PathMap.lookup statePM p = none := by
  constructor
  · intro h
    rcases List.mem_filterMap.mp h with ⟨pd, hmem, hf⟩
    by_cases hnn : (PathMap.lookup statePM pd.1).isNone = true
    · rw [if_pos hnn] at hf
      cases Option.some.inj hf
      rcases prevOpt with _ | prev
      · simp at hmem
      · exact ⟨pd.1, pd.2, rfl,
          by rw [prevLook, Option.some_bind]
             exact (lookup_eq_some_iff_mem _ hp _ _).mpr hmem,
          Option.isNone_iff_eq_none.mp hnn⟩
    · rw [if_neg hnn] at hf
      exact Option.noConfusion hf
  · rintro ⟨p, d, rfl, hprev, hnone⟩
    rcases prevOpt with _ | prev
    · rw [prevLook] at hprev
      exact Option.noConfusion hprev
    · rw [prevLook, Option.some_bind] at hprev
      have hmem : (p, d) ∈ prev := (lookup_eq_some_iff_mem _ hp _ _).mp hprev
      refine List.mem_filterMap.mpr ⟨(p, d), hmem, ?_⟩
      rw [show ((p, d) : String × String).1 = p from rfl, hnone]
      rfl

/-- Generalization of `map_fst_filterMap_sublist`: the images of a
`filterMap`'s results are a sublist of the inputs' images when the
producer preserves the key. -/
theorem map_filterMap_sublist {α β γ : Type} (g : α → Option β) (key : β → γ) (pre : α → γ)
    (hg : ∀ a e, g a = some e → key e = pre a) :
    ∀ l : List α, ((l.filterMap g).map key).Sublist (l.map pre) := by
  intro l
  induction l with
  | nil => simp
  | cons a t ih =>
    rcases hga : g a with _ | e
    · rw [List.filterMap_cons_none hga, List.map_cons]
      exact ih.cons (pre a)
    · rw [List.filterMap_cons_some hga, List.map_cons, List.map_cons, hg a e hga]
      exact ih.cons₂ (pre a)

theorem insertsRows_g_some {vn : Nat} {prevOpt : Option PathMap} (pd : String × String)
    (e : VFRow)
    (h : (match prevOpt with
       | some prev =>
         match PathMap.lookup prev pd.1 with
         | some d0 => if d0 = pd.2 then none else some (⟨vn, pd.1, pd.2, false⟩ : VFRow)
         | none => some ⟨vn, pd.1, pd.2, false⟩
       | none => some ⟨vn, pd.1, pd.2, false⟩) = some e) :
    e = ⟨vn, pd.1, pd.2, false⟩ := by
  rcases prevOpt with _ | prev
  · exact (Option.some.inj h).symm
  · have h2 : (match PathMap.lookup prev pd.1 with
        | some d0 => if d0 = pd.2 then none else some (⟨vn, pd.1, pd.2, false⟩ : VFRow)
        | none => some ⟨vn, pd.1, pd.2, false⟩) = some e := h
    rcases hlook : PathMap.lookup prev pd.1 with _ | d0
    · rw [hlook] at h2
      exact (Option.some.inj h2).symm
    · rw [hlook] at h2
      have h3 : (if d0 = pd.2 then none
          else some (⟨vn, pd.1, pd.2, false⟩ : VFRow)) = some e := h2
      by_cases he : d0 = pd.2
      · rw [if_pos he] at h3
        exact Option.noConfusion h3
      · rw [if_neg he] at h3
        exact (Option.some.inj h3).symm

theorem tombRows_g_some {vn : Nat} {statePM : PathMap} (pd : String × String) (e : VFRow)
    (h : (if (PathMap.lookup statePM pd.1).isNone then some (⟨vn, pd.1, pd.2, true⟩ : VFRow)
          else none) = some e) :
    e = ⟨vn, pd.1, pd.2, true⟩ := by
  by_cases hn : (PathMap.lookup statePM pd.1).isNone = true
  · rw [if_pos hn] at h
    exact (Option.some.inj h).symm
  · rw [if_neg hn] at h
    exact Option.noConfusion h

theorem insertsRows_paths_nodup (vn : Nat) (prevOpt : Option PathMap) (statePM : PathMap)
    (hn : (statePM.map (·.1)).Nodup) :
    ((insertsRows vn prevOpt statePM).map (·.path)).Nodup := by
  rw [insertsRows]
  refine List.Nodup.sublist (map_filterMap_sublist _ VFRow.path Prod.fst ?_ statePM) hn
  intro pd e h
  rw [insertsRows_g_some pd e h]

theorem tombRows_paths_nodup (vn : Nat) (prevOpt : Option PathMap) (statePM : PathMap)
    (hp : ((prevOpt.getD []).map (·.1)).Nodup) :
    ((tombRows vn prevOpt statePM).map (·.path)).Nodup := by
  rw [tombRows]
  refine List.Nodup.sublist
    (map_filterMap_sublist _ VFRow.path Prod.fst ?_ (prevOpt.getD [])) hp
  intro pd e h
  rw [tombRows_g_some pd e h]

theorem block_paths_nodup (vn : Nat) (prevOpt : Option PathMap) (statePM : PathMap)
    (hn : (statePM.map (·.1)).Nodup) (hp : ((prevOpt.getD []).map (·.1)).Nodup) :
    ((insertsRows vn prevOpt statePM ++ tombRows vn prevOpt statePM).map
      (·.path)).Nodup := by
  rw [List.map_append]
  refine List.Nodup.append (insertsRows_paths_nodup vn prevOpt statePM hn)
    (tombRows_paths_nodup vn prevOpt statePM hp) ?_
  intro a ha hb
  rcases List.mem_map.mp ha with ⟨e1, he1, hp1⟩
  rcases List.mem_map.mp hb with ⟨e2, he2, hp2⟩
  rcases (mem_insertsRows hn).mp he1 with ⟨p1, d1, rfl, hl1, _⟩
  rcases (mem_tombRows hp).mp he2 with ⟨p2, d2, rfl, _, hl2⟩
  have h12 : p1 = p2 := by
    have : p1 = a := hp1
    have h2 : p2 = a := hp2
    rw [this, h2]
  rw [h12, hl2] at hl1
  exact Option.noConfusion hl1

theorem collect_step_keys_nodup (acc : PathMap) (pd : String × String)
    (h : (acc.map (·.1)).Nodup) :
    (((acc.filter (fun e => e.1 ≠ pd.1)) ++ [pd]).map (·.1)).Nodup := by
  rw [List.map_append]
  refine List.Nodup.append (((List.filter_sublist _).map _).nodup h) (by simp) ?_
  intro a ha hb
  simp only [List.map_cons, List.map_nil, List.mem_singleton] at hb
  rcases List.mem_map.mp ha with ⟨e, he, hae⟩
  have hne := List.of_mem_filter he
  simp only [decide_not, Bool.not_eq_true', decide_eq_false_iff_not] at hne
  exact hne (by rw [← hae] at hb; exact hb)

theorem collectPathMap_keys_nodup (l : List (String × String)) :
    ((collectPathMap l).map (·.1)).Nodup := by
  suffices h : ∀ acc : PathMap, (acc.map (·.1)).Nodup →
      ((l.foldl (fun acc pd => acc.filter (fun e => e.1 ≠ pd.1) ++ [pd]) acc).map
        (·.1)).Nodup from h [] (by simp)
  induction l with
  | nil => intro acc h; exact h
  | cons pd t ih =>
    intro acc h
    exact ih _ (collect_step_keys_nodup acc pd h)

theorem toPathMap_keys_nodup (m : DigestMap) : ((m.toPathMap).map (·.1)).Nodup :=
  collectPathMap_keys_nodup _

/-- The invariant maintained while `setObjectVersions` writes versions
`1..k` of a fresh index: version rows are exactly `1..k`, all
version-file rows are at versions `1..k`, the reconstructed state of
every `v ≤ k` equals the input state, and the rows at each `v ≤ k` are
exactly the delta of the input state at `v` against `v-1`. -/
def Inv (versions : List Version) (db : ObjDB) (k : Nat) : Prop :=
  db.versions.map (·.vnum) = List.range' 1 k
  ∧ (∀ r ∈ db.vfiles, 1 ≤ r.vnum ∧ r.vnum ≤ k)
  ∧ (∀ v p, v ≤ k → stateAt db.vfiles v p = PathMap.lookup (stv versions v) p)
  ∧ (∀ v p d (del : Bool), 1 ≤ v → v ≤ k →
      ((⟨v, p, d, del⟩ : VFRow) ∈ db.vfiles ↔
        (if del then
            PathMap.lookup (stv versions (v - 1)) p = some d
              ∧ PathMap.lookup (stv versions v) p = none
          else
            PathMap.lookup (stv versions v) p = some d
              ∧ (v = 1 ∨ PathMap.lookup (stv versions (v - 1)) p ≠ some d))))

theorem inv_empty (versions : List Version) (files : List FileRow) :
    Inv versions ⟨files, [], []⟩ 0 := by
  refine ⟨rfl, ?_, ?_, ?_⟩
  · intro r hr
    simp at hr
  · intro v p hv
    have hv0 : v = 0 := Nat.le_zero.mp hv
    subst hv0
    rfl
  · intro v p d del h1 h0
    omega

/-- On a database without a version row at `vn` and whose file rows all
avoid `vn`, a fresh `setObjectVersion` always rewrites the version's
file rows (the stored digest is the empty string, which a hash never
equals). -/
theorem setObjectVersion_fresh_eq (sha : String → String) (db : ObjDB) (vn : Nat)
    (ver : Version) (hgv : getVersion db vn = none)
    (hha : DigestMap.Hash sha ver.State ≠ "")
    (hfil : db.vfiles.filter (fun r => r.vnum ≠ vn) = db.vfiles) :
    setObjectVersion sha db vn ver =
      ⟨db.files,
       upsertObjectVersion db.versions
         ⟨vn, DigestMap.Hash sha ver.State, ver.Created, ver.UserName, ver.UserAddr,
          ver.Message⟩,
       db.vfiles
         ++ insertsRows vn
             (if 1 < vn then
               some (getVersionState
                 ⟨db.files,
                  upsertObjectVersion db.versions
                    ⟨vn, DigestMap.Hash sha ver.State, ver.Created, ver.UserName,
                     ver.UserAddr, ver.Message⟩,
                  db.vfiles⟩ (vn - 1))
              else none)
             ver.State.toPathMap
         ++ tombRows vn
             (if 1 < vn then
               some (getVersionState
                 ⟨db.files,
                  upsertObjectVersion db.versions
                    ⟨vn, DigestMap.Hash sha ver.State, ver.Created, ver.UserName,
                     ver.UserAddr, ver.Message⟩,
                  db.vfiles⟩ (vn - 1))
              else none)
             ver.State.toPathMap⟩ := by
  simp only [setObjectVersion, hgv, Option.map_none', Option.getD_none]
  rw [if_pos hha]
  simp only [setObjectVersionState, deleteObjectVersionFiles]
  rw [hfil]

theorem setObjectVersion_step (sha : String → String) (hsha : ∀ s, sha s ≠ "")
    (versions : List Version) (db : ObjDB) (k : Nat)
    (ver : Version) (hver : versions[k]? = some ver)
    (hInv : Inv versions db k) :
    Inv versions (setObjectVersion sha db (k + 1) ver) (k + 1) := by
  obtain ⟨hA, hB, hC, hD⟩ := hInv
  have hstv : ver.State.toPathMap = stv versions (k + 1) := by
    rw [stv, hver]
    rfl
  have hgv : getVersion db (k + 1) = none := by
    rw [getVersion, List.find?_eq_none]
    intro v hv
    have hm : v.vnum ∈ db.versions.map (·.vnum) := List.mem_map.mpr ⟨v, hv, rfl⟩
    rw [hA] at hm
    have := List.mem_range'_1.mp hm
    simp only [decide_eq_true_eq]
    omega
  have hany : db.versions.any (fun v => v.vnum = k + 1) = false := by
    rw [List.any_eq_false]
    intro v hv
    have hm : v.vnum ∈ db.versions.map (·.vnum) := List.mem_map.mpr ⟨v, hv, rfl⟩
    rw [hA] at hm
    have := List.mem_range'_1.mp hm
    simp only [decide_eq_true_eq]
    omega
  have hfil : db.vfiles.filter (fun r => r.vnum ≠ k + 1) = db.vfiles := by
    rw [List.filter_eq_self]
    intro r hr
    have h2 := (hB r hr).2
    simp only [ne_eq, decide_not, Bool.not_eq_true', decide_eq_false_iff_not]
    omega
  rw [setObjectVersion_fresh_eq sha db (k + 1) ver hgv (hsha _) hfil]
  set VS : List VRow := upsertObjectVersion db.versions
    ⟨k + 1, DigestMap.Hash sha ver.State, ver.Created, ver.UserName, ver.UserAddr,
     ver.Message⟩ with hVS
  set PREV : Option PathMap :=
    if 1 < k + 1 then some (getVersionState ⟨db.files, VS, db.vfiles⟩ (k + 1 - 1))
    else none with hPREV
  set SPM : PathMap := ver.State.toPathMap with hSPM
  set INS : List VFRow := insertsRows (k + 1) PREV SPM with hINS
  set TMB : List VFRow := tombRows (k + 1) PREV SPM with hTMB
  have hSPMs : SPM = stv versions (k + 1) := hstv
  have hSnd : (SPM.map (·.1)).Nodup := by
    rw [hSPM]
    exact toPathMap_keys_nodup _
  have hprevAll : ∀ p, prevLook PREV p = PathMap.lookup (stv versions k) p := by
    intro p
    rcases Nat.eq_zero_or_pos k with hk0 | hkpos
    · subst hk0
      rw [hPREV, if_neg (by omega)]
      rfl
    · rw [hPREV, if_pos (by omega)]
      rw [prevLook, Option.some_bind]
      rw [lookup_getVersionState]
      exact hC k p (le_refl k)
  have hprevnd : ((PREV.getD []).map (·.1)).Nodup := by
    rcases Nat.eq_zero_or_pos k with hk0 | hkpos
    · subst hk0
      rw [hPREV, if_neg (by omega)]
      simp
    · rw [hPREV, if_pos (by omega)]
      exact getVersionState_keys_nodup _ _
  have hInsShape : ∀ r ∈ INS, r.vnum = k + 1 ∧ r.isDeleted = false := by
    intro r hr
    rw [hINS] at hr
    exact insertsRows_shape hr
  have hTmbShape : ∀ r ∈ TMB, r.vnum = k + 1 ∧ r.isDeleted = true := by
    intro r hr
    rw [hTMB] at hr
    exact tombRows_shape hr
  have hBlk : ∀ r ∈ INS ++ TMB, r.vnum = k + 1 := by
    intro r hr
    rcases List.mem_append.mp hr with h | h
    · exact (hInsShape r h).1
    · exact (hTmbShape r h).1
  have hOldLt : ∀ r ∈ db.vfiles, r.vnum < k + 1 := by
    intro r hr
    have := (hB r hr).2
    omega
  refine ⟨?_, ?_, ?_, ?_⟩
  · show VS.map (·.vnum) = List.range' 1 (k + 1)
    have hcond : ¬(db.versions.any (fun v => v.vnum
        = (⟨k + 1, DigestMap.Hash sha ver.State, ver.Created, ver.UserName, ver.UserAddr,
           ver.Message⟩ : VRow).vnum) = true) :=
      fun h => Bool.noConfusion (hany.symm.trans h)
    rw [hVS, upsertObjectVersion, if_neg hcond, List.map_append, hA, List.map_cons,
      List.map_nil, List.range'_concat]
    have h1k : 1 + 1 * k = k + 1 := by omega
    rw [h1k]
  · intro r hr
    rcases List.mem_append.mp hr with hr2 | hr2
    · rcases List.mem_append.mp hr2 with hr3 | hr3
      · have := hB r hr3
        omega
      · have := (hInsShape r hr3).1
        omega
    · have := (hTmbShape r hr2).1
      omega
  · intro v p hv
    by_cases hvk : v ≤ k
    · show stateAt (db.vfiles ++ INS ++ TMB) v p = _
      rw [List.append_assoc, stateAt_append_high _ _ v p
        (fun r hr => by have := hBlk r hr; omega)]
      exact hC v p hvk
    · have hveq : v = k + 1 := by omega
      subst hveq
      show stateAt (db.vfiles ++ INS ++ TMB) (k + 1) p = _
      rw [List.append_assoc, stateAt,
        latestRow_append_block db.vfiles (INS ++ TMB) (k + 1) p hOldLt hBlk]
      rcases hfind : (INS ++ TMB).find? (fun r => r.path = p) with _ | rb
      · rw [hfind, option_none_or,
          latestRow_le_irrel db.vfiles k (k + 1) p (fun r hr => (hB r hr).2) (by omega)]
        show stateAt db.vfiles k p = _
        rw [hC k p (le_refl k)]
        have hno : ∀ r ∈ INS ++ TMB, ¬(r.path = p) := by
          intro r hr
          have h2 := List.find?_eq_none.mp hfind r hr
          simpa using h2
        rcases hS : PathMap.lookup SPM p with _ | d
        · rcases hPL : prevLook PREV p with _ | d0
          · rw [← hprevAll p, hPL, ← hSPMs, hS]
          · exfalso
            have hmem : (⟨k + 1, p, d0, true⟩ : VFRow) ∈ TMB := by
              rw [hTMB]
              exact (mem_tombRows hprevnd).mpr ⟨p, d0, rfl, hPL, hS⟩
            exact hno _ (List.mem_append.mpr (Or.inr hmem)) rfl
        · have hPL : prevLook PREV p = some d := by
            by_contra hne
            have hmem : (⟨k + 1, p, d, false⟩ : VFRow) ∈ INS := by
              rw [hINS]
              exact (mem_insertsRows hSnd).mpr ⟨p, d, rfl, hS, hne⟩
            exact hno _ (List.mem_append.mpr (Or.inl hmem)) rfl
          rw [← hprevAll p, hPL, ← hSPMs, hS]
      · rw [hfind, option_some_or]
        have hrbp : rb.path = p := by simpa using List.find?_some hfind
        rcases List.mem_append.mp (List.mem_of_find?_eq_some hfind) with hmem | hmem
        · rw [hINS] at hmem
          rcases (mem_insertsRows hSnd).mp hmem with ⟨p1, d1, heq, hl1, _⟩
          subst heq
          have hp1 : p1 = p := hrbp
          subst hp1
          show some d1 = _
          rw [← hSPMs, hl1]
        · rw [hTMB] at hmem
          rcases (mem_tombRows hprevnd).mp hmem with ⟨p1, d1, heq, _, hl1⟩
          subst heq
          have hp1 : p1 = p := hrbp
          subst hp1
          show (none : Option String) = _
          rw [← hSPMs, hl1]
  · intro v p d del h1 hvk1
    by_cases hvk : v ≤ k
    · have hsplit : ((⟨v, p, d, del⟩ : VFRow) ∈ db.vfiles ++ INS ++ TMB)
          ↔ (⟨v, p, d, del⟩ : VFRow) ∈ db.vfiles := by
        rw [List.append_assoc, List.mem_append]
        constructor
        · rintro (h | h)
          · exact h
          · exfalso
            have := hBlk _ h
            simp only at this
            omega
        · exact Or.inl
      rw [hsplit]
      exact hD v p d del h1 hvk
    · have hveq : v = k + 1 := by omega
      subst hveq
      have hsplit : ((⟨k + 1, p, d, del⟩ : VFRow) ∈ db.vfiles ++ INS ++ TMB)
          ↔ ((⟨k + 1, p, d, del⟩ : VFRow) ∈ INS ∨ (⟨k + 1, p, d, del⟩ : VFRow) ∈ TMB) := by
        rw [List.append_assoc, List.mem_append, List.mem_append]
        constructor
        · rintro (h | h)
          · exfalso
            have := (hB _ h).2
            simp only at this
            omega
          · exact h
        · exact Or.inr
      rw [hsplit, hINS, hTMB, mem_insertsRows hSnd, mem_tombRows hprevnd]
      rcases del with _ | _
      · rw [if_neg Bool.false_ne_true]
        constructor
        · rintro (⟨p1, d1, heq, hl, hpl⟩ | ⟨p1, d1, heq, hpl, hl⟩)
          · injection heq with e1 e2 e3 e4
            subst e2
            subst e3
            rw [hSPMs] at hl
            refine ⟨hl, Or.inr ?_⟩
            rw [hprevAll p] at hpl
            exact hpl
          · injection heq with e1 e2 e3 e4
            exact Bool.noConfusion e4
        · rintro ⟨hl, hcond⟩
          left
          refine ⟨p, d, rfl, by rw [hSPMs]; exact hl, ?_⟩
          rw [hprevAll p]
          rcases hcond with h1' | hne
          · have hk0 : k = 0 := by omega
            subst hk0
            intro hcon
            exact Option.noConfusion hcon
          · exact hne
      · rw [if_pos rfl]
        constructor
        · rintro (⟨p1, d1, heq, hl, hpl⟩ | ⟨p1, d1, heq, hpl, hl⟩)
          · injection heq with e1 e2 e3 e4
            exact Bool.noConfusion e4
          · injection heq with e1 e2 e3 e4
            subst e2
            subst e3
            rw [hprevAll p] at hpl
            rw [hSPMs] at hl
            exact ⟨hpl, hl⟩
        · rintro ⟨hpl, hl⟩
          right
          refine ⟨p, d, rfl, ?_, ?_⟩
          · rw [hprevAll p]
            exact hpl
          · rw [hSPMs]
            exact hl

/-- The invariant is preserved along `setVersionsLoop` when the loop
resumes at position `k` of the version list. -/
theorem loop_inv (sha : String → String) (hsha : ∀ s, sha s ≠ "")
    (versions : List Version) (rest : List Version) :
    ∀ (k : Nat) (db : ObjDB), rest = versions.drop k → Inv versions db k →
      Inv versions (setVersionsLoop sha db (k + 1) rest) (k + rest.length) := by
  induction rest with
  | nil =>
    intro k db hrest hInv
    exact hInv
  | cons v rest ih =>
    intro k db hrest hInv
    have hv : versions[k]? = some v := by
      have h2 : (versions.drop k)[0]? = some v := by
        rw [← hrest]
        simp
      rw [List.getElem?_drop] at h2
      simpa using h2
    have hstep := setObjectVersion_step sha hsha versions db k v hv hInv
    have hrest2 : rest = versions.drop (k + 1) := by
      have h3 : (versions.drop k).drop 1 = rest := by
        rw [← hrest]
        rfl
      rw [List.drop_drop] at h3
      rw [← h3]
    have hrec := ih (k + 1) (setObjectVersion sha db (k + 1) v) hrest2 hstep
    show Inv versions
      (setVersionsLoop sha (setObjectVersion sha db (k + 1) v) (k + 1 + 1) rest)
      (k + (v :: rest).length)
    have hlen : k + (v :: rest).length = k + 1 + rest.length := by
      simp only [List.length_cons]
      omega
    rw [hlen]
    exact hrec

/-- Running `SetObject` against an empty database establishes the
invariant at the head version. -/
theorem setObjectModel_fresh_inv (sha : String → String) (hsha : ∀ s, sha s ≠ "")
    (obj : Object) :
    Inv obj.Versions (setObjectModel sha emptyDB obj) obj.Versions.length := by
  have h0 : Inv obj.Versions ⟨setObjectFiles emptyDB.files obj.Manifest, [], []⟩ 0 :=
    inv_empty _ _
  have hmain := loop_inv sha hsha obj.Versions obj.Versions 0
    ⟨setObjectFiles emptyDB.files obj.Manifest, [], []⟩ rfl h0
  rw [Nat.zero_add obj.Versions.length] at hmain
  show Inv obj.Versions
    (setObjectVersions sha ⟨setObjectFiles emptyDB.files obj.Manifest, [], []⟩
      obj.Versions) obj.Versions.length
  simp only [setObjectVersions, List.length_nil, Nat.zero_sub, List.range'_zero,
    List.foldl_nil]
  exact hmain

theorem shaX_ne_empty (s : String) : shaX s ≠ "" := by
  intro h
  have h2 : ('#' :: s.data) = ([] : List Char) := congrArg String.data h
  exact List.noConfusion h2

/-- C1 (corrected): for an object indexed by `SetObject` into a fresh
database, the stored version-file rows at every version `V ≤ head` are
exactly the delta of `state(V)` against `state(V-1)` — a tombstone row
for `P` iff `P` was live at `V-1` and is gone at `V`, a non-tombstone row
for `P` iff `P` is live at `V` and (`V = 1` or its digest changed) — and,
unconditionally, `setObjectVersion` leaves the version's file rows
untouched whenever the new state digest equals the previously stored
one.  (The original claim asserted the delta shape for *every* object
written through `SetObject`, including re-indexing over existing rows;
that is refuted by `c1_delta_rows_counterexample`.) -/
theorem c1_delta_rows_fresh_index (sha : String → String) (hsha : ∀ s, sha s ≠ "")
    (obj : Object) (V : Nat) (p d : String)
    (h1 : 1 ≤ V) (hV : V ≤ obj.Versions.length) :
    (((⟨V, p, d, true⟩ : VFRow) ∈ (setObjectModel sha emptyDB obj).vfiles ↔
        PathMap.lookup (stv obj.Versions (V - 1)) p = some d
          ∧ PathMap.lookup (stv obj.Versions V) p = none)
      ∧ ((⟨V, p, d, false⟩ : VFRow) ∈ (setObjectModel sha emptyDB obj).vfiles ↔
        PathMap.lookup (stv obj.Versions V) p = some d
          ∧ (V = 1 ∨ PathMap.lookup (stv obj.Versions (V - 1)) p ≠ some d)))
    ∧ (∀ (db0 : ObjDB) (vn : Nat) (ver : Version),
        DigestMap.Hash sha ver.State = ((getVersion db0 vn).map (·.stateDigest)).getD "" →
        (setObjectVersion sha db0 vn ver).vfiles = db0.vfiles) := by
  constructor
  · obtain ⟨-, -, -, hD⟩ := setObjectModel_fresh_inv sha hsha obj
    exact ⟨hD V p d true h1 hV, hD V p d false h1 hV⟩
  · intro db0 vn ver h
    simp only [setObjectVersion]
    rw [if_neg (show ¬(DigestMap.Hash sha ver.State
      ≠ ((getVersion db0 vn).map (·.stateDigest)).getD "") from fun hne => hne h)]

/-- First indexing run of the C1 counterexample: `v1 = {a ↦ d1}`,
`v2 = {a ↦ d1, b ↦ d2}`. -/
def c1objA : Object :=
  ⟨"obj",
    [⟨[("d1", ["a"])], "", "", "", 100⟩,
     ⟨[("d1", ["a"]), ("d2", ["b"])], "", "", "", 200⟩],
    [("d1", ["c1"]), ("d2", ["c2"])]⟩

/-- Second (re-indexing) run of the C1 counterexample: version 1's state
is rewritten to `{a ↦ d9}` while version 2's state — and hence its state
digest — is unchanged. -/
def c1objB : Object :=
  ⟨"obj",
    [⟨[("d9", ["a"])], "", "", "", 100⟩,
     ⟨[("d1", ["a"]), ("d2", ["b"])], "", "", "", 200⟩],
    [("d9", ["c9"]), ("d1", ["c1"]), ("d2", ["c2"])]⟩

theorem c1_delta_rows_fresh_index_witness :
    (∀ s, shaX s ≠ "") ∧ 1 ≤ 2 ∧ 2 ≤ c1objA.Versions.length
    ∧ ((⟨2, "b", "d2", false⟩ : VFRow) ∈ (setObjectModel shaX emptyDB c1objA).vfiles ↔
        PathMap.lookup (stv c1objA.Versions 2) "b" = some "d2"
          ∧ (2 = 1 ∨ PathMap.lookup (stv c1objA.Versions (2 - 1)) "b" ≠ some "d2")) :=
  ⟨shaX_ne_empty, by decide, by decide,
    (c1_delta_rows_fresh_index shaX shaX_ne_empty c1objA 2 "b" "d2"
      (by decide) (by decide)).1.2⟩

/-- Refutes the original C1 claim for re-indexed objects: after indexing
`c1objA` and then re-indexing the same object as `c1objB` (version 1's
state rewritten, version 2's digest unchanged), version 2's rows are
stale — path `a` changed digest between `state(1) = {a ↦ d9}` and
`state(2) = {a ↦ d1, b ↦ d2}`, so the delta requires a non-tombstone row
`(2, a, d1)`, but `setObjectVersion` skipped version 2's rewrite. -/
theorem c1_delta_rows_counterexample :
    ¬((⟨2, "a", "d1", false⟩ : VFRow) ∈
        (setObjectModel shaX (setObjectModel shaX emptyDB c1objA) c1objB).vfiles)
    ∧ PathMap.lookup (stv c1objB.Versions 2) "a" = some "d1"
    ∧ ((2 : Nat) = 1 ∨ PathMap.lookup (stv c1objB.Versions (2 - 1)) "a" ≠ some "d1") := by
  decide

end Ocflite
